import Mathlib

/-!
# PFSP-WT: verification of the optimization engine against its specification

Shallow embedding of the PFSP-WT metaheuristic solver (completion-time
kernel, objectives, NEH seed, local-search neighbourhoods, optimizer
budget tracking, Pareto bookkeeping, MMAS/PACO pheromone policies) and
proofs of the specified properties.

Conventions of the embedding:
* machine integers (`i4` processing times, due dates, integer weights)
  are modelled as `ℤ`; the values involved never approach the `int32`
  range in the statements proved here;
* `float32`/`float64` pheromone arithmetic is modelled exactly, over `ℚ`
  where the source computes field operations only and over `ℝ` where it
  takes square roots; rounding is outside the scope of the claims;
* NumPy matrices are `List (List ℤ)` (row major), vectors are `List`;
  in-place kernels become functions returning the filled buffer;
* `np.random.rand()` draws are an explicit oracle list, consumed in the
  order the source draws them;
* a fallible float division (`ZeroDivisionError` on Python scalars,
  `inf` on NumPy scalars) is modelled as `Option`, `none` marking the
  division whose divisor is zero.
-/

namespace PFSPWT

/-! ## Completion-time kernel (`objective.py`, `computation_times`)

The source fills the caller buffer by `c[:, 0] = np.cumsum(p[:, 0])`,
`c[0, :] = np.cumsum(p[0, :])`, then a row-major double loop
`c[i][j] = max(c[i-1][j], c[i][j-1]) + p[i][j]` over `i ≥ 1`, `j ≥ 1`.
Row `0` is the cumulative sum of `p`'s row `0`; every later row is
determined by the previous row and its own `p` row (its first entry by
the column-0 cumulative sum, its interior by the double loop). -/

/-- `np.cumsum` with accumulator: running sums of `l` starting from `acc`. -/
def cumsumFrom (acc : ℤ) : List ℤ → List ℤ
  | [] => []
  | x :: xs => (acc + x) :: cumsumFrom (acc + x) xs

/-- `np.cumsum l`. -/
def cumsum (l : List ℤ) : List ℤ := cumsumFrom 0 l

/-- Interior of one row of the double loop: `as` are the remaining entries
of the previous row, `xs` the remaining processing times, `left` the entry
just written to the left. -/
def rowGo : List ℤ → List ℤ → ℤ → List ℤ
  | a :: as, x :: xs, left => (max a left + x) :: rowGo as xs (max a left + x)
  | _, _, _ => []

/-- Row `i ≥ 1` of the completion matrix from row `i-1` (`prev`) and row `i`
of the processing times (`prow`): the first entry is the column-0 cumulative
sum `prev[0] + prow[0]`, the rest is the double-loop recurrence. -/
def computeRow (prev prow : List ℤ) : List ℤ :=
  match prev, prow with
  | a :: as, x :: xs => (a + x) :: rowGo as xs (a + x)
  | _, _ => []

/-- Rows `1..` of the completion matrix, given the previous row. -/
def ctRows (prev : List ℤ) : List (List ℤ) → List (List ℤ)
  | [] => []
  | r :: rs => computeRow prev r :: ctRows (computeRow prev r) rs

/-- `computation_times` (objective.py lines 9-28): the completion matrix of
the (already reordered) processing-time matrix `p`. -/
def computation_times : List (List ℤ) → List (List ℤ)
  | [] => []
  | r0 :: rest => cumsum r0 :: ctRows (cumsum r0) rest

/-- Entry `C[i, j]` of the completion matrix of `p`. -/
def centry (p : List (List ℤ)) (i j : ℕ) : ℤ :=
  ((computation_times p).getD i []).getD j 0

/-- Entry `P[i, j]` of a matrix. -/
def pentry (p : List (List ℤ)) (i j : ℕ) : ℤ :=
  (p.getD i []).getD j 0

/-- `p` is an `n × m` matrix. -/
def isMatrix (p : List (List ℤ)) (n m : ℕ) : Prop :=
  p.length = n ∧ ∀ r ∈ p, r.length = m

instance (p : List (List ℤ)) (n m : ℕ) : Decidable (isMatrix p n m) := by
  unfold isMatrix; infer_instance

theorem cumsumFrom_length (acc : ℤ) (l : List ℤ) :
    (cumsumFrom acc l).length = l.length := by
  induction l generalizing acc with
  | nil => rfl
  | cons x xs ih => simp [cumsumFrom, ih]

theorem cumsum_length (l : List ℤ) : (cumsum l).length = l.length :=
  cumsumFrom_length 0 l

theorem rowGo_length (as xs : List ℤ) (left : ℤ) :
    (rowGo as xs left).length = min as.length xs.length := by
  induction as generalizing xs left with
  | nil => cases xs <;> rfl
  | cons a as ih =>
    cases xs with
    | nil => rfl
    | cons x xs => simp [rowGo, ih, Nat.succ_min_succ]

theorem computeRow_length (prev prow : List ℤ) :
    (computeRow prev prow).length = min prev.length prow.length := by
  cases prev with
  | nil => cases prow <;> rfl
  | cons a as =>
    cases prow with
    | nil => rfl
    | cons x xs => simp [computeRow, rowGo_length, Nat.succ_min_succ]

theorem cumsumFrom_getD_zero (acc : ℤ) (x : ℤ) (xs : List ℤ) :
    (cumsumFrom acc (x :: xs)).getD 0 0 = acc + x := rfl

theorem cumsumFrom_getD_succ (acc : ℤ) (l : List ℤ) (j : ℕ)
    (h : j + 1 < l.length) :
    (cumsumFrom acc l).getD (j + 1) 0 =
      (cumsumFrom acc l).getD j 0 + l.getD (j + 1) 0 := by
  induction l generalizing acc j with
  | nil => simp at h
  | cons x xs ih =>
    cases j with
    | zero =>
      cases xs with
      | nil => simp at h
      | cons y ys => simp [cumsumFrom]
    | succ j =>
      have hj : j + 1 < xs.length := by simpa using h
      simpa [cumsumFrom] using ih (acc + x) j hj

theorem rowGo_getD_zero (a x left : ℤ) (as xs : List ℤ) :
    (rowGo (a :: as) (x :: xs) left).getD 0 0 = max a left + x := rfl

theorem rowGo_getD_succ (as xs : List ℤ) (left : ℤ) (j : ℕ)
    (h : j + 1 < min as.length xs.length) :
    (rowGo as xs left).getD (j + 1) 0 =
      max (as.getD (j + 1) 0) ((rowGo as xs left).getD j 0) + xs.getD (j + 1) 0 := by
  induction as generalizing xs left j with
  | nil => simp at h
  | cons a as ih =>
    cases xs with
    | nil => simp at h
    | cons x xs =>
      cases j with
      | zero =>
        simp only [List.length_cons, Nat.succ_min_succ] at h
        have h0 : 0 < min as.length xs.length := by omega
        match as, xs, Nat.lt_min.mp h0 with
        | b :: as, y :: xs, _ => simp [rowGo]
      | succ j =>
        simp only [List.length_cons, Nat.succ_min_succ] at h
        have hj : j + 1 < min as.length xs.length := by omega
        simpa [rowGo] using ih xs (max a left + x) j hj

theorem computeRow_getD_zero (prev prow : List ℤ) (h1 : 0 < prev.length)
    (h2 : 0 < prow.length) :
    (computeRow prev prow).getD 0 0 = prev.getD 0 0 + prow.getD 0 0 := by
  match prev, prow, h1, h2 with
  | a :: as, x :: xs, _, _ => rfl

theorem computeRow_getD_succ (prev prow : List ℤ) (j : ℕ)
    (h : j + 1 < min prev.length prow.length) :
    (computeRow prev prow).getD (j + 1) 0 =
      max (prev.getD (j + 1) 0) ((computeRow prev prow).getD j 0) +
        prow.getD (j + 1) 0 := by
  match prev, prow with
  | [], _ => simp at h
  | _ :: _, [] => simp at h
  | a :: as, x :: xs =>
    simp only [List.length_cons, Nat.succ_min_succ] at h
    cases j with
    | zero =>
      have h0 : 0 < min as.length xs.length := by omega
      match as, xs, Nat.lt_min.mp h0 with
      | b :: as, y :: xs, _ => simp [computeRow, rowGo]
    | succ j =>
      have hj : j + 1 < min as.length xs.length := by omega
      simpa [computeRow] using rowGo_getD_succ as xs (a + x) j hj

/-- Row `i` of the completion matrix of `p`. -/
def crow (p : List (List ℤ)) (i : ℕ) : List ℤ :=
  (computation_times p).getD i []

theorem ctRows_getD (rest : List (List ℤ)) (prev : List ℤ) (i : ℕ)
    (h : i < rest.length) :
    (ctRows prev rest).getD i [] =
      computeRow ((prev :: ctRows prev rest).getD i []) (rest.getD i []) := by
  induction rest generalizing prev i with
  | nil => simp at h
  | cons r rs ih =>
    cases i with
    | zero => rfl
    | succ i =>
      have hi : i < rs.length := by simpa using h
      simpa [ctRows] using ih (computeRow prev r) i hi

theorem crow_zero (r0 : List ℤ) (rest : List (List ℤ)) :
    crow (r0 :: rest) 0 = cumsum r0 := rfl

theorem crow_succ (p : List (List ℤ)) (i : ℕ) (h : i + 1 < p.length) :
    crow p (i + 1) = computeRow (crow p i) (p.getD (i + 1) []) := by
  match p with
  | [] => simp at h
  | r0 :: rest =>
    have hi : i < rest.length := by simpa using h
    simpa [crow, computation_times] using ctRows_getD rest (cumsum r0) i hi

theorem crow_length (p : List (List ℤ)) (n m : ℕ) (hp : isMatrix p n m) :
    ∀ i, i < n → (crow p i).length = m := by
  obtain ⟨hn, hm⟩ := hp
  intro i
  induction i with
  | zero =>
    intro h0
    cases p with
    | nil => simp at hn; omega
    | cons r0 rest =>
      have : r0.length = m := hm r0 (by simp)
      simp [crow_zero, cumsum_length, this]
  | succ i ih =>
    intro hi
    have hilt : i + 1 < p.length := by omega
    have hrow : (p.getD (i + 1) []).length = m := by
      rw [List.getD_eq_getElem _ _ hilt]
      exact hm _ (List.getElem_mem hilt)
    rw [crow_succ p i hilt, computeRow_length, ih (by omega), hrow]
    simp

theorem centry_eq_crow (p : List (List ℤ)) (i j : ℕ) :
    centry p i j = (crow p i).getD j 0 := rfl

theorem pentry_row (p : List (List ℤ)) (i j : ℕ) :
    pentry p i j = (p.getD i []).getD j 0 := rfl

theorem prow_length (p : List (List ℤ)) (n m : ℕ) (hp : isMatrix p n m)
    (i : ℕ) (hi : i < n) : (p.getD i []).length = m := by
  obtain ⟨hlen, hrows⟩ := hp
  have hip : i < p.length := by omega
  rw [List.getD_eq_getElem _ _ hip]
  exact hrows _ (List.getElem_mem hip)

theorem centry_zero_zero (p : List (List ℤ)) (n m : ℕ) (hp : isMatrix p n m)
    (hn : 1 ≤ n) (hm : 1 ≤ m) : centry p 0 0 = pentry p 0 0 := by
  obtain ⟨hlen, hrows⟩ := hp
  cases p with
  | nil => simp at hlen; omega
  | cons r0 rest =>
    have h0 : r0.length = m := hrows r0 (by simp)
    cases r0 with
    | nil => simp at h0; omega
    | cons x xs => simp [centry, pentry, computation_times, cumsum, cumsumFrom]

theorem centry_col0_succ (p : List (List ℤ)) (n m : ℕ) (hp : isMatrix p n m)
    (hm : 1 ≤ m) (i : ℕ) (hi : i + 1 < n) :
    centry p (i + 1) 0 = centry p i 0 + pentry p (i + 1) 0 := by
  have hlen := hp.1
  have hstep : crow p (i + 1) = computeRow (crow p i) (p.getD (i + 1) []) :=
    crow_succ p i (by omega)
  rw [centry_eq_crow, centry_eq_crow, hstep,
    computeRow_getD_zero _ _ (by rw [crow_length p n m hp i (by omega)]; omega)
      (by rw [prow_length p n m hp (i + 1) hi]; omega)]
  simp [pentry]

theorem centry_row0_succ (p : List (List ℤ)) (n m : ℕ) (hp : isMatrix p n m)
    (hn : 1 ≤ n) (j : ℕ) (hj : j + 1 < m) :
    centry p 0 (j + 1) = centry p 0 j + pentry p 0 (j + 1) := by
  obtain ⟨hlen, hrows⟩ := hp
  cases p with
  | nil => simp at hlen; omega
  | cons r0 rest =>
    have h0 : r0.length = m := hrows r0 (by simp)
    have := cumsumFrom_getD_succ 0 r0 j (by omega)
    simpa [centry, pentry, computation_times, cumsum] using this

theorem centry_succ_succ (p : List (List ℤ)) (n m : ℕ) (hp : isMatrix p n m)
    (i j : ℕ) (hi : i + 1 < n) (hj : j + 1 < m) :
    centry p (i + 1) (j + 1) =
      max (centry p i (j + 1)) (centry p (i + 1) j) + pentry p (i + 1) (j + 1) := by
  have hlen := hp.1
  have hstep : crow p (i + 1) = computeRow (crow p i) (p.getD (i + 1) []) :=
    crow_succ p i (by omega)
  have hmin : j + 1 < min (crow p i).length (p.getD (i + 1) []).length := by
    rw [crow_length p n m hp i (by omega), prow_length p n m hp (i + 1) hi]; omega
  rw [centry_eq_crow, centry_eq_crow, centry_eq_crow, hstep,
    computeRow_getD_succ _ _ j hmin]
  simp [pentry]

/-- C1: for every processing-time matrix `P` of shape `N×M` (`N ≥ 1`,
`M ≥ 1`) already reordered by the candidate permutation,
`computation_times` produces the matrix `C` of the flow-shop recurrence:
`C[0,0] = P[0,0]`, `C[i,0] = C[i-1,0] + P[i,0]` for `i ≥ 1`,
`C[0,j] = C[0,j-1] + P[0,j]` for `j ≥ 1`, and
`C[i,j] = max(C[i-1,j], C[i,j-1]) + P[i,j]` for every other `(i,j)`. -/
theorem computation_times_recurrence (p : List (List ℤ)) (n m : ℕ)
    (hp : isMatrix p n m) (hn : 1 ≤ n) (hm : 1 ≤ m) :
    centry p 0 0 = pentry p 0 0 ∧
    (∀ i, 1 ≤ i → i < n → centry p i 0 = centry p (i - 1) 0 + pentry p i 0) ∧
    (∀ j, 1 ≤ j → j < m → centry p 0 j = centry p 0 (j - 1) + pentry p 0 j) ∧
    (∀ i j, 1 ≤ i → i < n → 1 ≤ j → j < m →
      centry p i j = max (centry p (i - 1) j) (centry p i (j - 1)) + pentry p i j) := by
  refine ⟨centry_zero_zero p n m hp hn hm, ?_, ?_, ?_⟩
  · intro i h1 hi
    obtain ⟨i', rfl⟩ : ∃ i', i = i' + 1 := ⟨i - 1, by omega⟩
    simpa using centry_col0_succ p n m hp hm i' hi
  · intro j h1 hj
    obtain ⟨j', rfl⟩ : ∃ j', j = j' + 1 := ⟨j - 1, by omega⟩
    simpa using centry_row0_succ p n m hp hn j' hj
  · intro i j h1i hi h1j hj
    obtain ⟨i', rfl⟩ : ∃ i', i = i' + 1 := ⟨i - 1, by omega⟩
    obtain ⟨j', rfl⟩ : ∃ j', j = j' + 1 := ⟨j - 1, by omega⟩
    simpa using centry_succ_succ p n m hp i' j' hi hj

/-- Witness for C1 at the spec's tiny scenario `P = [[3,2],[2,4],[1,3]]`. -/
theorem computation_times_recurrence_witness :
    centry [[3, 2], [2, 4], [1, 3]] 1 1 =
      max (centry [[3, 2], [2, 4], [1, 3]] 0 1) (centry [[3, 2], [2, 4], [1, 3]] 1 0) +
        pentry [[3, 2], [2, 4], [1, 3]] 1 1 :=
  (computation_times_recurrence [[3, 2], [2, 4], [1, 3]] 3 2 (by decide)
    (by decide) (by decide)).2.2.2 1 1 (by decide) (by decide) (by decide) (by decide)

/-! ## Instances and objectives (`instance.py`, `objective.py`)

An `Instance` holds the `n × m` processing times `p`, due dates `d` and
weights `w` (`io.py` parses all three as integers). The `c` attribute is
the scratch completion buffer, which the embedding recomputes
functionally. The `objective` decorator with `refresh=True` reorders `p`
by the solution (`instance.p[solution, :]`), fills `c`, and hands over to
the wrapped function which reads `c[:, -1]`, `d[solution]`,
`w[solution]`. -/

structure PInstance where
  p : List (List ℤ)
  d : List ℤ
  w : List ℤ

/-- `instance.n = p.shape[0]`. -/
def PInstance.n (inst : PInstance) : ℕ := inst.p.length

/-- `instance.m = p.shape[1]`. -/
def PInstance.m (inst : PInstance) : ℕ := (inst.p.getD 0 []).length

/-- `p[solution, :]`: the processing-time rows reordered by the solution. -/
def orderJobs (p : List (List ℤ)) (sol : List ℕ) : List (List ℤ) :=
  sol.map fun job => p.getD job []

/-- `weighted_tardiness` (objective.py lines 54-69) with `refresh=True`:
`Σ_i w[solution[i]] * max(C[i, M-1] - d[solution[i]], 0)` for the
completion matrix of `p[solution, :]`. -/
def weighted_tardiness (inst : PInstance) (sol : List ℕ) : ℤ :=
  ((List.range sol.length).map fun i =>
    inst.w.getD (sol.getD i 0) 0 *
      max (centry (orderJobs inst.p sol) i (inst.m - 1) -
        inst.d.getD (sol.getD i 0) 0) 0).sum

/-- `np.max` over a (nonempty) integer list. -/
def listMax : List ℤ → ℤ
  | [] => 0
  | x :: xs => xs.foldl max x

/-- `makespan` (objective.py lines 72-84) with `refresh=True`:
`np.max(c[:, -1])` over the completion matrix of `p[solution, :]` (the
buffer has one row per position of the solution). -/
def makespan (inst : PInstance) (sol : List ℕ) : ℤ :=
  listMax ((List.range sol.length).map fun i =>
    centry (orderJobs inst.p sol) i (inst.m - 1))

theorem le_foldl_max (l : List ℤ) (a : ℤ) : a ≤ l.foldl max a := by
  induction l generalizing a with
  | nil => simp
  | cons x xs ih => exact le_trans (le_max_left a x) (ih (max a x))

theorem foldl_max_of_mem (l : List ℤ) (a x : ℤ) (hx : x ∈ l) :
    x ≤ l.foldl max a := by
  induction l generalizing a with
  | nil => simp at hx
  | cons y ys ih =>
    rcases List.mem_cons.mp hx with rfl | hmem
    · exact le_trans (le_max_right a x) (le_foldl_max ys (max a x))
    · exact ih (max a y) hmem

theorem foldl_max_le (l : List ℤ) (a B : ℤ) (ha : a ≤ B)
    (h : ∀ x ∈ l, x ≤ B) : l.foldl max a ≤ B := by
  induction l generalizing a with
  | nil => simpa
  | cons y ys ih =>
    exact ih (max a y) (max_le ha (h y (by simp)))
      (fun x hx => h x (by simp [hx]))

theorem listMax_eq_of (l : List ℤ) (B : ℤ) (hB : B ∈ l)
    (h : ∀ x ∈ l, x ≤ B) : listMax l = B := by
  cases l with
  | nil => simp at hB
  | cons x xs =>
    refine le_antisymm (foldl_max_le xs x B (h x (by simp))
      (fun y hy => h y (by simp [hy]))) ?_
    rcases List.mem_cons.mp hB with rfl | hmem
    · exact le_foldl_max xs B
    · exact foldl_max_of_mem xs x B hmem

/-- Row-direction monotonicity of the completion matrix over nonnegative
processing times. -/
theorem centry_mono_row (p : List (List ℤ)) (n m : ℕ) (hp : isMatrix p n m)
    (hpos : ∀ i j, i < n → j < m → 0 ≤ pentry p i j) :
    ∀ i j, i + 1 < n → j < m → centry p i j ≤ centry p (i + 1) j := by
  intro i j hi hj
  cases j with
  | zero =>
    rw [centry_col0_succ p n m hp (by omega) i hi]
    have := hpos (i + 1) 0 hi hj
    omega
  | succ j =>
    rw [centry_succ_succ p n m hp i j hi hj]
    have := hpos (i + 1) (j + 1) hi hj
    have hmax := le_max_left (centry p i (j + 1)) (centry p (i + 1) j)
    omega

/-- Column-direction monotonicity of the completion matrix over nonnegative
processing times. -/
theorem centry_mono_col (p : List (List ℤ)) (n m : ℕ) (hp : isMatrix p n m)
    (hpos : ∀ i j, i < n → j < m → 0 ≤ pentry p i j) :
    ∀ i j, i < n → j + 1 < m → centry p i j ≤ centry p i (j + 1) := by
  intro i j hi hj
  cases i with
  | zero =>
    rw [centry_row0_succ p n m hp (by omega) j hj]
    have := hpos 0 (j + 1) hi hj
    omega
  | succ i =>
    rw [centry_succ_succ p n m hp i j hi hj]
    have := hpos (i + 1) (j + 1) hi hj
    have hmax := le_max_right (centry p i (j + 1)) (centry p (i + 1) j)
    omega

theorem centry_le_last_of_row (p : List (List ℤ)) (n m : ℕ)
    (hp : isMatrix p n m)
    (hpos : ∀ i j, i < n → j < m → 0 ≤ pentry p i j) (hm : 1 ≤ m) :
    ∀ k i, i + k < n → centry p i (m - 1) ≤ centry p (i + k) (m - 1) := by
  intro k
  induction k with
  | zero => intro i _; simp
  | succ k ih =>
    intro i hik
    calc centry p i (m - 1) ≤ centry p (i + k) (m - 1) := ih i (by omega)
      _ ≤ centry p (i + k + 1) (m - 1) :=
        centry_mono_row p n m hp hpos (i + k) (m - 1) (by omega) (by omega)

theorem orderJobs_isMatrix (p : List (List ℤ)) (n m : ℕ) (sol : List ℕ)
    (hp : isMatrix p n m) (hsol : sol.Perm (List.range n)) :
    isMatrix (orderJobs p sol) n m := by
  obtain ⟨hlen, hrows⟩ := hp
  constructor
  · simpa [orderJobs] using hsol.length_eq
  · intro r hr
    obtain ⟨job, hjob, rfl⟩ := List.mem_map.mp hr
    have hjn : job < n := by
      have := hsol.mem_iff.mp hjob
      simpa using this
    have hjp : job < p.length := by omega
    rw [List.getD_eq_getElem _ _ hjp]
    exact hrows _ (List.getElem_mem hjp)

theorem orderJobs_row_mem (p : List (List ℤ)) (n : ℕ) (sol : List ℕ)
    (hlen : p.length = n) (hsol : ∀ x ∈ sol, x < n) :
    ∀ r ∈ orderJobs p sol, r ∈ p := by
  intro r hr
  obtain ⟨job, hjob, rfl⟩ := List.mem_map.mp hr
  have hjp : job < p.length := by have := hsol job hjob; omega
  rw [List.getD_eq_getElem _ _ hjp]
  exact List.getElem_mem hjp

theorem matrix_entries_nonneg (p : List (List ℤ)) (n m : ℕ)
    (hp : isMatrix p n m) (hw : ∀ r ∈ p, ∀ x ∈ r, 0 ≤ x) :
    ∀ i j, i < n → j < m → 0 ≤ pentry p i j := by
  intro i j hi hj
  have hip : i < p.length := by have := hp.1; omega
  have hrow : p.getD i [] ∈ p := by
    rw [List.getD_eq_getElem _ _ hip]; exact List.getElem_mem hip
  have hjlen : j < (p.getD i []).length := by
    rw [prow_length p n m hp i hi]; omega
  rw [pentry_row, List.getD_eq_getElem _ _ hjlen]
  exact hw _ hrow _ (List.getElem_mem hjlen)

/-- C6: over nonnegative processing times, the completion matrix is
monotone along rows and columns, and `makespan` (the maximum of the last
column, `np.max(c[:, -1])`) equals its last entry `C[N-1, M-1]`. -/
theorem makespan_eq_last_entry (inst : PInstance) (n m : ℕ) (sol : List ℕ)
    (hp : isMatrix inst.p n m) (hn : 1 ≤ n) (hm : 1 ≤ m)
    (hw : ∀ r ∈ inst.p, ∀ x ∈ r, 0 ≤ x)
    (hsol : sol.Perm (List.range n)) :
    (∀ i j, 1 ≤ i → i < n → j < m →
      centry (orderJobs inst.p sol) (i - 1) j ≤ centry (orderJobs inst.p sol) i j) ∧
    (∀ i j, i < n → 1 ≤ j → j < m →
      centry (orderJobs inst.p sol) i (j - 1) ≤ centry (orderJobs inst.p sol) i j) ∧
    makespan inst sol = centry (orderJobs inst.p sol) (n - 1) (m - 1) := by
  set q := orderJobs inst.p sol with hq
  have hqmat : isMatrix q n m := orderJobs_isMatrix inst.p n m sol hp hsol
  have hqpos : ∀ i j, i < n → j < m → 0 ≤ pentry q i j :=
    matrix_entries_nonneg q n m hqmat
      (fun r hr => hw r (orderJobs_row_mem inst.p n sol hp.1
        (fun x hx => by simpa using hsol.mem_iff.mp hx) r hr))
  have hmq : inst.m = m := by
    have := prow_length inst.p n m hp 0 (by omega)
    simpa [PInstance.m] using this
  have hslen : sol.length = n := by simpa using hsol.length_eq
  refine ⟨?_, ?_, ?_⟩
  · intro i j h1 hi hj
    obtain ⟨i', rfl⟩ : ∃ i', i = i' + 1 := ⟨i - 1, by omega⟩
    simpa using centry_mono_row q n m hqmat hqpos i' j hi hj
  · intro i j hi h1 hj
    obtain ⟨j', rfl⟩ : ∃ j', j = j' + 1 := ⟨j - 1, by omega⟩
    simpa using centry_mono_col q n m hqmat hqpos i j' hi hj
  · rw [makespan, hmq, hslen, ← hq]
    refine listMax_eq_of _ _ ?_ ?_
    · exact List.mem_map.mpr ⟨n - 1, List.mem_range.mpr (by omega), rfl⟩
    · intro x hx
      obtain ⟨i, hi, rfl⟩ := List.mem_map.mp hx
      have hin : i < n := List.mem_range.mp hi
      have := centry_le_last_of_row q n m hqmat hqpos hm (n - 1 - i) i (by omega)
      have heq : i + (n - 1 - i) = n - 1 := by omega
      rwa [heq] at this

/-- Witness for C6 at the spec's tiny scenario. -/
theorem makespan_eq_last_entry_witness :
    makespan ⟨[[3, 2], [2, 4], [1, 3]], [5, 9, 12], [1, 1, 1]⟩ [0, 1, 2] =
      centry (orderJobs [[3, 2], [2, 4], [1, 3]] [0, 1, 2]) 2 1 :=
  (makespan_eq_last_entry ⟨[[3, 2], [2, 4], [1, 3]], [5, 9, 12], [1, 1, 1]⟩ 3 2
    [0, 1, 2] (by decide) (by decide) (by decide) (by decide) (by decide)).2.2

/-! ## Local-search neighbourhoods (`neighbourhood.py`)

Each kernel receives `d = instance.d[solution]` and
`w = instance.w[solution]` ordered by the *incumbent* and keeps them
fixed while it mutates `solution`, so a candidate's score is
`Σ_pos w[pos] * max(C[pos, M-1] - d[pos], 0)` with `C` from the mutated
ordering but `d`, `w` still in incumbent order (`kernel_eval` below).
The `__insertion_search` kernel applies each move to `solution` in place
and its "put the jobs back in place" line (neighbourhood.py line 181) is
a bare tuple expression with no assignment — a dead expression — so the
mutations accumulate across candidates.  The `interchange_search`
wrapper (line 147) calls the `__swap_search` kernel, not
`__interchange_search`. -/

/-- `solution[i], solution[i+1] = solution[i+1], solution[i]`. -/
def swapAt (l : List ℕ) (i : ℕ) : List ℕ :=
  l.take i ++ l.getD (i + 1) 0 :: l.getD i 0 :: l.drop (i + 2)

/-- `solution[i], solution[j] = solution[j], solution[i]` for `j < i`. -/
def exchangeAt (l : List ℕ) (i j : ℕ) : List ℕ :=
  l.take j ++ l.getD i 0 ::
    ((l.drop (j + 1)).take (i - j - 1) ++ l.getD j 0 :: l.drop (i + 1))

/-- `solution[j+1:i+1], solution[j] = solution[j:i], solution[i]` for
`j < i`: the job at position `i` moves to position `j`, the jobs at
`j..i-1` shift one position right. -/
def applyInsertion (l : List ℕ) (i j : ℕ) : List ℕ :=
  l.take j ++ l.getD i 0 :: ((l.drop j).take (i - j) ++ l.drop (i + 1))

/-- The kernels' candidate score: completion times of the current
(possibly mutated) ordering `cur`, due dates and weights fixed in the
vectors `dvec`, `wvec` the wrapper built from the incumbent. -/
def kernel_eval (inst : PInstance) (dvec wvec : List ℤ) (cur : List ℕ) : ℤ :=
  ((List.range cur.length).map fun pos =>
    wvec.getD pos 0 *
      max (centry (orderJobs inst.p cur) pos (inst.m - 1) -
        dvec.getD pos 0) 0).sum

/-- `instance.d[solution]`. -/
def staleD (inst : PInstance) (sol : List ℕ) : List ℤ :=
  sol.map fun job => inst.d.getD job 0

/-- `instance.w[solution]`. -/
def staleW (inst : PInstance) (sol : List ℕ) : List ℤ :=
  sol.map fun job => inst.w.getD job 0

/-- `swap_search` (wrapper + `__swap_search` kernel, neighbourhood.py
lines 11-77): best-improvement scan of the adjacent swaps `i ↔ i+1`,
`i ∈ [0, N-2]`, scores strict-compared against the incumbent's, first
minimum kept, the winning swap applied to a copy of the incumbent. -/
def swapScanStep (inst : PInstance) (dvec wvec : List ℤ) (sol : List ℕ)
    (acc : ℤ × Option ℕ) (i : ℕ) : ℤ × Option ℕ :=
  if kernel_eval inst dvec wvec (swapAt sol i) < acc.1
  then (kernel_eval inst dvec wvec (swapAt sol i), some i) else acc

def swap_search (inst : PInstance) (sol : List ℕ) : List ℕ × Bool :=
  let dvec := staleD inst sol
  let wvec := staleW inst sol
  let z0 := kernel_eval inst dvec wvec sol
  let scan := (List.range (sol.length - 1)).foldl
    (swapScanStep inst dvec wvec sol) (z0, (none : Option ℕ))
  match scan.2 with
  | some i => (swapAt sol i, true)
  | none => (sol, false)

/-- `interchange_search` (neighbourhood.py lines 127-148): the wrapper
calls the `__swap_search` kernel (line 147). -/
def interchange_search (inst : PInstance) (sol : List ℕ) : List ℕ × Bool :=
  swap_search inst sol

/-- The ordered pairs `(i, j)`, `j < i < n`, scanned with `i` ascending
then `j` ascending. -/
def pairsLT (n : ℕ) : List (ℕ × ℕ) :=
  (List.range n).flatMap fun i => (List.range i).map fun j => (i, j)

/-- The unused `__interchange_search` kernel (neighbourhood.py lines
80-124): it scans `i ∈ range(N-1)`, `j ∈ range(i)` — pairs involving the
last position are never scanned — with the kernels' fixed `d`, `w`. -/
def interchange_kernel (inst : PInstance) (sol : List ℕ) : List ℕ × Bool :=
  let dvec := staleD inst sol
  let wvec := staleW inst sol
  let z0 := kernel_eval inst dvec wvec sol
  let scan := (pairsLT (sol.length - 1)).foldl
    (fun acc ij =>
      if kernel_eval inst dvec wvec (exchangeAt sol ij.1 ij.2) < acc.1
      then (kernel_eval inst dvec wvec (exchangeAt sol ij.1 ij.2), some ij) else acc)
    (z0, (none : Option (ℕ × ℕ)))
  match scan.2 with
  | some ij => (exchangeAt sol ij.1 ij.2, true)
  | none => (sol, false)

/-- The claim's interchange semantics, stated from the spec for
comparison with the source: every unordered pair `0 ≤ j < i < N`, each
candidate scored by the weighted tardiness of the exchanged sequence
itself, best strict improvement applied, earlier-scanned kept on ties. -/
def interchange_search_spec (inst : PInstance) (sol : List ℕ) : List ℕ × Bool :=
  let z0 := weighted_tardiness inst sol
  let scan := (pairsLT sol.length).foldl
    (fun acc ij =>
      if weighted_tardiness inst (exchangeAt sol ij.1 ij.2) < acc.1
      then (weighted_tardiness inst (exchangeAt sol ij.1 ij.2), some ij) else acc)
    (z0, (none : Option (ℕ × ℕ)))
  match scan.2 with
  | some ij => (exchangeAt sol ij.1 ij.2, true)
  | none => (sol, false)

/-- `insertion_search` (wrapper + `__insertion_search` kernel,
neighbourhood.py lines 151-218): the kernel applies each insertion to
`solution` in place, the restoring line 181 is a dead expression, so
every later candidate is scored on the accumulated mutation; the winning
`(i, j)` is finally applied to a copy of the *original* incumbent. -/
def insertionScanStep (inst : PInstance) (dvec wvec : List ℤ)
    (acc : List ℕ × ℤ × Option (ℕ × ℕ)) (ij : ℕ × ℕ) :
    List ℕ × ℤ × Option (ℕ × ℕ) :=
  if kernel_eval inst dvec wvec (applyInsertion acc.1 ij.1 ij.2) < acc.2.1
  then (applyInsertion acc.1 ij.1 ij.2,
    kernel_eval inst dvec wvec (applyInsertion acc.1 ij.1 ij.2), some ij)
  else (applyInsertion acc.1 ij.1 ij.2, acc.2.1, acc.2.2)

def insertion_search (inst : PInstance) (sol : List ℕ) : List ℕ × Bool :=
  let dvec := staleD inst sol
  let wvec := staleW inst sol
  let z0 := kernel_eval inst dvec wvec sol
  let scan := (pairsLT sol.length).foldl
    (insertionScanStep inst dvec wvec) (sol, z0, (none : Option (ℕ × ℕ)))
  match scan.2.2 with
  | some ij => (applyInsertion sol ij.1 ij.2, true)
  | none => (sol, false)

/-- The claim's insertion semantics, stated from the spec for comparison
with the source: every pair `j < i`, each candidate being the incumbent
with exactly that one move applied and scored by its own weighted
tardiness, independently of previously scanned candidates. -/
def insertion_search_spec (inst : PInstance) (sol : List ℕ) : List ℕ × Bool :=
  let z0 := weighted_tardiness inst sol
  let scan := (pairsLT sol.length).foldl
    (fun acc ij =>
      if weighted_tardiness inst (applyInsertion sol ij.1 ij.2) < acc.1
      then (weighted_tardiness inst (applyInsertion sol ij.1 ij.2), some ij) else acc)
    (z0, (none : Option (ℕ × ℕ)))
  match scan.2 with
  | some ij => (applyInsertion sol ij.1 ij.2, true)
  | none => (sol, false)

/-- C2 (the code violates the claim): on `p = [[5],[5],[5]]`,
`d = [15,15,4]`, `w = [1,1,1]`, incumbent `[0,1,2]`, the exchange of
positions 0 and 2 lowers the weighted tardiness from 11 to 1, but
`interchange_search` — which runs the adjacent-swap kernel — returns the
incumbent unchanged with `improvement = false`. -/
theorem interchange_search_is_swap_search :
    interchange_search ⟨[[5], [5], [5]], [15, 15, 4], [1, 1, 1]⟩ [0, 1, 2] =
        ([0, 1, 2], false) ∧
      interchange_search_spec ⟨[[5], [5], [5]], [15, 15, 4], [1, 1, 1]⟩ [0, 1, 2] =
        ([2, 1, 0], true) ∧
      interchange_kernel ⟨[[5], [5], [5]], [15, 15, 4], [1, 1, 1]⟩ [0, 1, 2] =
        ([0, 1, 2], false) := by decide

/-- C8 (the code violates the claim): on `p = [[1],[2],[1]]`,
`d = [0,0,0]`, `w = [1,1,1]`, incumbent `[0,1,2]`, scoring each insertion
on the sequence obtained from the incumbent by exactly that move picks
the move producing `[2,0,1]`, but the kernel — whose restore line is
dead — scores later candidates on mutated sequences and returns
`([0,2,1], true)`. -/
theorem insertion_search_dead_restore :
    insertion_search ⟨[[1], [2], [1]], [0, 0, 0], [1, 1, 1]⟩ [0, 1, 2] =
        ([0, 2, 1], true) ∧
      insertion_search_spec ⟨[[1], [2], [1]], [0, 0, 0], [1, 1, 1]⟩ [0, 1, 2] =
        ([2, 0, 1], true) := by decide

/-! ## Optimizer state and stopping conditions (`optimizer/base.py`)

`BaseOptimizer` keeps the history of objective tuples, the iteration
counter, the stagnation counter and the three bounds. Defaults are
`n_iterations = np.inf`, `early_stopping = np.inf`, `max_time = None`;
`_t0` is set (at `start()`) exactly when `max_time` is not `None`, so
the wall-clock check is guarded by the presence of a time bound. The
ever-present integer `_n_iterations` makes its `is not None` guard
always pass, so the iteration check always runs. `np.inf` bounds are
modelled as `⊤`, Python `None` as `Option.none`, and the value
`time.time() - _t0` read inside `is_running` as the explicit argument
`elapsed`. -/

structure OptimizerState where
  objective : List (List ℤ)
  maxNIterations : WithTop ℕ
  nIterations : ℕ
  earlyStopping : Option (WithTop ℕ)
  maxTime : Option ℚ
  nStepsWithoutImprovement : ℕ
  Zbest : WithTop ℤ
  best : Option (List ℕ)

/-- The iteration-bound check of `is_running`
(`self._n_iterations >= self._max_n_iterations`). -/
def runningIterCheck (s : OptimizerState) : Bool :=
  if s.maxNIterations ≤ (s.nIterations : WithTop ℕ) then false else true

/-- The stagnation check of `is_running`, guarded by
`self._early_stopping is not None`. -/
def runningStagCheck (s : OptimizerState) : Bool :=
  match s.earlyStopping with
  | some es =>
    if es < (s.nStepsWithoutImprovement : WithTop ℕ) then false
    else runningIterCheck s
  | none => runningIterCheck s

/-- `is_running` (optimizer/base.py lines 82-99): wall-clock check when a
time bound is set, then stagnation, then iterations. -/
def is_running (s : OptimizerState) (elapsed : ℚ) : Bool :=
  match s.maxTime with
  | some mt => if mt < elapsed then false else runningStagCheck s
  | none => runningStagCheck s

/-- C5: `is_running()` returns `False` iff at least one bound is
violated — elapsed wall clock exceeds `max_time` (when a time bound is
set), or the stagnation count exceeds `early_stopping`, or the iteration
counter has reached `max_n_iterations` — and under the default bounds
(no time bound, `early_stopping = np.inf`, `n_iterations = np.inf`) it
always returns `True`. -/
theorem is_running_iff_bound_violated (s : OptimizerState) (elapsed : ℚ) :
    (is_running s elapsed = false ↔
      (∃ mt, s.maxTime = some mt ∧ mt < elapsed) ∨
        (∃ es, s.earlyStopping = some es ∧
          es < (s.nStepsWithoutImprovement : WithTop ℕ)) ∨
        s.maxNIterations ≤ (s.nIterations : WithTop ℕ)) ∧
    (s.maxTime = none → s.earlyStopping = some ⊤ → s.maxNIterations = ⊤ →
      is_running s elapsed = true) := by
  have hiter : runningIterCheck s = false ↔
      s.maxNIterations ≤ (s.nIterations : WithTop ℕ) := by
    unfold runningIterCheck
    split_ifs with h <;> simp [h]
  have hstag : runningStagCheck s = false ↔
      (∃ es, s.earlyStopping = some es ∧
        es < (s.nStepsWithoutImprovement : WithTop ℕ)) ∨
      s.maxNIterations ≤ (s.nIterations : WithTop ℕ) := by
    unfold runningStagCheck
    rcases hes : s.earlyStopping with _ | es
    · simp [hes, hiter]
    · dsimp only
      split_ifs with h
      · simp [hes, h]
      · simp [hes, hiter, h]
  have hiff : is_running s elapsed = false ↔
      (∃ mt, s.maxTime = some mt ∧ mt < elapsed) ∨
        (∃ es, s.earlyStopping = some es ∧
          es < (s.nStepsWithoutImprovement : WithTop ℕ)) ∨
        s.maxNIterations ≤ (s.nIterations : WithTop ℕ) := by
    unfold is_running
    rcases hmt : s.maxTime with _ | mt
    · simp [hmt, hstag]
    · dsimp only
      split_ifs with h
      · simp [hmt, h]
      · simp [hmt, hstag, h]
  refine ⟨hiff, fun h1 h2 h3 => ?_⟩
  cases hb : is_running s elapsed with
  | true => rfl
  | false =>
    rcases hiff.mp hb with ⟨mt, hmt, _⟩ | ⟨es, hes, hlt⟩ | hle
    · rw [h1] at hmt; cases hmt
    · rw [h2] at hes
      injection hes with hes
      subst hes
      exact absurd hlt (by simp)
    · rw [h3] at hle
      exact absurd hle (by simp)

/-- Witness for C5: default bounds, arbitrary concrete counters. -/
theorem is_running_iff_bound_violated_witness :
    is_running ⟨[], ⊤, 7, some ⊤, none, 3, ⊤, none⟩ 10 = true :=
  (is_running_iff_bound_violated ⟨[], ⊤, 7, some ⊤, none, 3, ⊤, none⟩ 10).2
    rfl rfl rfl

/-! ## Division hazards at `Zbest = 0` (`aco/mmas.py`, `aco/paco.py`)

`MMAS.update_parameters` computes `1. / ((1. - rho) * Zbest)` and
`PACO.init_pheromones` fills the trail matrix with `1. / Zbest`; neither
clamps the divisor, so at `Zbest = 0` (a feasible schedule with no
weighted tardiness) the division has divisor zero — `ZeroDivisionError`
on a Python scalar, `inf` on a NumPy scalar, in either case no finite
clamped value. The fallible division is modelled as `Option`, `none`
standing for the zero-divisor outcome. -/

/-- `MMAS.update_parameters` (aco/mmas.py lines 74-81):
`tau_max = 1 / ((1 - rho) * Zbest)`, `tau_min = tau_max / 5`, unguarded. -/
def mmas_update_parameters (rho Zbest : ℚ) : Option (ℚ × ℚ) :=
  if (1 - rho) * Zbest = 0 then none
  else some (((1 - rho) * Zbest)⁻¹, ((1 - rho) * Zbest)⁻¹ / 5)

/-- The trail intensity `1 / Zbest` of `PACO.init_pheromones`
(aco/paco.py line 53), unguarded. -/
def paco_init_intensity (Zbest : ℚ) : Option ℚ :=
  if Zbest = 0 then none else some Zbest⁻¹

/-- C9 (the code violates the claim): at `Zbest = 0` both divisors are
exactly zero — there is no ε-clamp in either routine, and the division
by zero happens for every `rho`. -/
theorem zbest_zero_divides_by_zero (rho : ℚ) :
    mmas_update_parameters rho 0 = none ∧ paco_init_intensity 0 = none := by
  simp [mmas_update_parameters, paco_init_intensity]

/-! ## Bi-objective optimizer (`optimizer/bioptimizer.py`)

The Pareto set is a Python dict from the `(weighted tardiness, makespan)`
pair to the achieving solution, modelled as an insertion-ordered
association list. `_evaluate` walks the incumbents, breaking at the
first one that dominates the candidate (the set is then left unchanged),
otherwise keeping exactly the incumbents the candidate does not
dominate and inserting the candidate. -/

/-- `BiObjectiveOptimizer.dominates` (bioptimizer.py lines 66-80):
`wt_a <= wt_b and m_a <= m_b and (wt_a < wt_b or m_a < m_b)` — the
solution components are ignored. -/
def dominates (a b : ℤ × ℤ) : Prop :=
  a.1 ≤ b.1 ∧ a.2 ≤ b.2 ∧ (a.1 < b.1 ∨ a.2 < b.2)

instance (a b : ℤ × ℤ) : Decidable (dominates a b) := by
  unfold dominates; infer_instance

/-- `new_pareto_set[key] = sol` on a dict: update in place when the key
exists, append otherwise. -/
def dictInsert (ps : List ((ℤ × ℤ) × List ℕ)) (k : ℤ × ℤ) (v : List ℕ) :
    List ((ℤ × ℤ) × List ℕ) :=
  if ps.any fun e => e.1 = k then
    ps.map fun e => if e.1 = k then (k, v) else e
  else ps ++ [(k, v)]

/-- The incumbent loop of `_evaluate` (bioptimizer.py lines 52-59):
returns the retained incumbents, the `is_improvement` flag and whether a
`break` fired (an incumbent dominates the candidate). -/
def biEvalGo (cand : ℤ × ℤ) :
    List ((ℤ × ℤ) × List ℕ) → List ((ℤ × ℤ) × List ℕ) × Bool × Bool
  | [] => ([], false, false)
  | e :: rest =>
    if dominates e.1 cand then ([], false, true)
    else if ¬ dominates cand e.1 then
      ((e :: (biEvalGo cand rest).1), (biEvalGo cand rest).2.1,
        (biEvalGo cand rest).2.2)
    else ((biEvalGo cand rest).1, true, (biEvalGo cand rest).2.2)

/-- `BiObjectiveOptimizer._evaluate` (bioptimizer.py lines 29-64), the
Pareto-set update for a candidate pair `cand` achieved by `sol`: the new
Pareto set and the `is_improvement` flag. -/
def biEvaluate (ps : List ((ℤ × ℤ) × List ℕ)) (cand : ℤ × ℤ) (sol : List ℕ) :
    List ((ℤ × ℤ) × List ℕ) × Bool :=
  if (biEvalGo cand ps).2.2 then (ps, (biEvalGo cand ps).2.1)
  else (dictInsert (biEvalGo cand ps).1 cand sol, (biEvalGo cand ps).2.1)

/-- `_evaluate` with the candidate pair computed from the instance:
`weighted_tardiness(instance, sol)` then `makespan(instance, sol,
refresh=False)` on the buffer just filled for the same solution, which
equals the refreshed makespan. -/
def biObjective_evaluate (inst : PInstance) (ps : List ((ℤ × ℤ) × List ℕ))
    (sol : List ℕ) : List ((ℤ × ℤ) × List ℕ) × Bool :=
  biEvaluate ps (weighted_tardiness inst sol, makespan inst sol) sol

/-- No two entries of a Pareto set dominate each other. -/
def pairwiseNonDom (ps : List ((ℤ × ℤ) × List ℕ)) : Prop :=
  ps.Pairwise fun a b => ¬ dominates a.1 b.1 ∧ ¬ dominates b.1 a.1

theorem biEvalGo_no_break (cand : ℤ × ℤ) (ps : List ((ℤ × ℤ) × List ℕ))
    (h : ∀ e ∈ ps, ¬ dominates e.1 cand) :
    (biEvalGo cand ps).2.2 = false ∧
      (biEvalGo cand ps).1 =
        ps.filter fun e => decide (¬ dominates cand e.1) := by
  induction ps with
  | nil => simp [biEvalGo]
  | cons e rest ih =>
    have he : ¬ dominates e.1 cand := h e (by simp)
    have hrest := ih fun x hx => h x (by simp [hx])
    by_cases hce : dominates cand e.1
    · simp [biEvalGo, he, hce, hrest.1, hrest.2]
    · simp [biEvalGo, he, hce, hrest.1, hrest.2]

theorem biEvalGo_break (cand : ℤ × ℤ) (ps : List ((ℤ × ℤ) × List ℕ))
    (h : ∃ e ∈ ps, dominates e.1 cand) :
    (biEvalGo cand ps).2.2 = true := by
  induction ps with
  | nil => simp at h
  | cons e rest ih =>
    by_cases he : dominates e.1 cand
    · simp [biEvalGo, he]
    · obtain ⟨x, hx, hdom⟩ := h
      rcases List.mem_cons.mp hx with rfl | hmem
      · exact absurd hdom he
      · have := ih ⟨x, hmem, hdom⟩
        by_cases hce : dominates cand e.1 <;> simp [biEvalGo, he, hce, this]

theorem dominates_irrefl (a : ℤ × ℤ) : ¬ dominates a a := by
  unfold dominates; omega

theorem dictInsert_keys (ps : List ((ℤ × ℤ) × List ℕ)) (k : ℤ × ℤ)
    (v : List ℕ) (q : ℤ × ℤ) :
    (q ∈ (dictInsert ps k v).map Prod.fst ↔ q ∈ ps.map Prod.fst ∨ q = k) := by
  unfold dictInsert
  split_ifs with h
  · obtain ⟨e, he, hek⟩ := List.any_eq_true.mp h
    have hk : k ∈ ps.map Prod.fst :=
      List.mem_map.mpr ⟨e, he, by simpa using hek⟩
    have hmap : (ps.map fun e => if e.1 = k then (k, v) else e).map Prod.fst =
        ps.map Prod.fst := by
      rw [List.map_map]
      refine List.map_congr_left fun e _ => ?_
      by_cases hek' : e.1 = k <;> simp [hek']
    rw [hmap]
    constructor
    · exact Or.inl
    · rintro (hq | rfl)
      · exact hq
      · exact hk
  · simp

theorem dictInsert_pairwise (ps : List ((ℤ × ℤ) × List ℕ)) (k : ℤ × ℤ)
    (v : List ℕ) (hps : pairwiseNonDom ps)
    (hk : ∀ e ∈ ps, ¬ dominates e.1 k ∧ ¬ dominates k e.1) :
    pairwiseNonDom (dictInsert ps k v) := by
  unfold dictInsert
  split_ifs with h
  · unfold pairwiseNonDom at hps ⊢
    refine List.Pairwise.map _ ?_ hps
    intro a b hab
    by_cases ha : a.1 = k <;> by_cases hb : b.1 = k <;>
      simp [ha, hb] at hab ⊢ <;> simp_all
  · unfold pairwiseNonDom at hps ⊢
    rw [List.pairwise_append]
    refine ⟨hps, by simp, ?_⟩
    intro a ha b hb
    have : b = (k, v) := by simpa using hb
    subst this
    exact ⟨(hk a ha).1, (hk a ha).2⟩

/-- C7: `_evaluate` preserves mutual non-domination of the Pareto set:
if an incumbent dominates the candidate the set is unchanged; otherwise
exactly the incumbents dominated by the candidate are removed (as keys)
and the candidate's pair is inserted; in both cases the resulting set is
still mutually non-dominated. -/
theorem bioptimizer_pareto_invariant (inst : PInstance)
    (ps : List ((ℤ × ℤ) × List ℕ)) (sol : List ℕ)
    (hps : pairwiseNonDom ps) :
    ((∃ e ∈ ps, dominates e.1 (weighted_tardiness inst sol, makespan inst sol)) →
      (biObjective_evaluate inst ps sol).1 = ps) ∧
    ((∀ e ∈ ps, ¬ dominates e.1 (weighted_tardiness inst sol, makespan inst sol)) →
      ∀ q, q ∈ (biObjective_evaluate inst ps sol).1.map Prod.fst ↔
        ((q ∈ ps.map Prod.fst ∧
          ¬ dominates (weighted_tardiness inst sol, makespan inst sol) q) ∨
          q = (weighted_tardiness inst sol, makespan inst sol))) ∧
    pairwiseNonDom (biObjective_evaluate inst ps sol).1 := by
  set cand := (weighted_tardiness inst sol, makespan inst sol) with hcand
  have hfilter_mem : ∀ q, q ∈ (ps.filter fun e =>
      decide (¬ dominates cand e.1)).map Prod.fst ↔
      q ∈ ps.map Prod.fst ∧ ¬ dominates cand q := by
    intro q
    constructor
    · intro hq
      obtain ⟨e, he, rfl⟩ := List.mem_map.mp hq
      have := List.mem_filter.mp he
      exact ⟨List.mem_map.mpr ⟨e, this.1, rfl⟩, by simpa using this.2⟩
    · rintro ⟨hq, hnd⟩
      obtain ⟨e, he, rfl⟩ := List.mem_map.mp hq
      exact List.mem_map.mpr ⟨e, List.mem_filter.mpr ⟨he, by simpa using hnd⟩, rfl⟩
  refine ⟨?_, ?_, ?_⟩
  · intro hdom
    have := biEvalGo_break cand ps hdom
    simp [biObjective_evaluate, biEvaluate, ← hcand, this]
  · intro hnd q
    obtain ⟨hflag, hkept⟩ := biEvalGo_no_break cand ps hnd
    rw [biObjective_evaluate, biEvaluate]
    rw [← hcand, hflag]
    simp only [Bool.false_eq_true, if_false]
    rw [hkept, dictInsert_keys, hfilter_mem]
  · by_cases hdom : ∃ e ∈ ps, dominates e.1 cand
    · have := biEvalGo_break cand ps hdom
      simpa [biObjective_evaluate, biEvaluate, ← hcand, this] using hps
    · push_neg at hdom
      obtain ⟨hflag, hkept⟩ := biEvalGo_no_break cand ps hdom
      rw [biObjective_evaluate, biEvaluate, ← hcand, hflag]
      simp only [Bool.false_eq_true, if_false]
      rw [hkept]
      refine dictInsert_pairwise _ cand sol ?_ ?_
      · exact List.Pairwise.sublist (List.filter_sublist ps) hps
      · intro e he
        have hmem := List.mem_filter.mp he
        exact ⟨hdom e hmem.1, by simpa using hmem.2⟩

/-- Witness for C7: an incumbent `(4,4)` dominates the candidate
`(5,5)` of the single-job instance, so the set is unchanged. -/
theorem bioptimizer_pareto_invariant_witness :
    (biObjective_evaluate ⟨[[5]], [0], [1]⟩ [((4, 4), [0])] [0]).1 =
      [((4, 4), [0])] :=
  (bioptimizer_pareto_invariant ⟨[[5]], [0], [1]⟩ [((4, 4), [0])] [0]
    (by unfold pairwiseNonDom; simp)).1 (by decide)

/-! ## PACO pheromone update (`aco/paco.py`, `update_pheromones`)

The update computes `h = np.argsort(ant)` — for a permutation,
`h[i]` is the position of job `i` in the ant's ordering, modelled as
`ant.indexOf i` — but `h_best = self._best.asarray()`, i.e. the best
*sequence itself* (`h_best[i]` is the job at position `i`), although the
source's own comment says "h_best[i] is the position of job i in the
best sequence obtained so far". It then evaporates `tau *= rho` and
deposits `1 / (sqrt(|h_best - k| + 1) * Z)` on every `(i, k)` with
`|h[i] - k| <= bound`, `bound = 1` if `n <= 40` else `2`. -/

/-- The pheromone map after `PACO.update_pheromones` (aco/paco.py lines
70-99) with score `Z` (the value of `self.evaluate(ant)`, whose optimizer
side effects are modelled separately): evaporation then deposit, with
`h_best[i] = best[i]` exactly as the source computes it. -/
noncomputable def paco_deposit (n : ℕ) (rho Z : ℝ) (ant best : List ℕ)
    (tau : ℕ → ℕ → ℝ) : ℕ → ℕ → ℝ := fun i k =>
  let bound : ℕ := if n ≤ 40 then 1 else 2
  if ((ant.indexOf i : ℤ) - (k : ℤ)).natAbs ≤ bound then
    rho * tau i k +
      1 / (Real.sqrt ((((best.getD i 0 : ℤ) - (k : ℤ)).natAbs + 1 : ℕ) : ℝ) * Z)
  else rho * tau i k

/-- The claim's update rule, stated from the spec for comparison: the
deposit uses `pos_best[i]`, the *position* of job `i` in the best
sequence (the inverse permutation), in place of `best[i]`. -/
noncomputable def paco_deposit_spec (n : ℕ) (rho Z : ℝ) (ant best : List ℕ)
    (tau : ℕ → ℕ → ℝ) : ℕ → ℕ → ℝ := fun i k =>
  let bound : ℕ := if n ≤ 40 then 1 else 2
  if ((ant.indexOf i : ℤ) - (k : ℤ)).natAbs ≤ bound then
    rho * tau i k +
      1 / (Real.sqrt ((((best.indexOf i : ℤ) - (k : ℤ)).natAbs + 1 : ℕ) : ℝ) * Z)
  else rho * tau i k

/-- C3 (the code violates the claim): with `n = 5`, ant `[0,1,2,3,4]`,
best `[1,2,3,4,0]`, `Z = 1`, `rho = 1/2` and zero trails, the deposit at
`(i, k) = (0, 1)` uses `h_best[0] = best[0] = 1` and yields
`1/√(|1-1|+1) = 1`, while the claimed rule uses job 0's position
`pos_best[0] = 4` and yields `1/√(|4-1|+1) = 1/2`. -/
theorem paco_update_pheromones_uses_sequence :
    paco_deposit 5 (1 / 2) 1 [0, 1, 2, 3, 4] [1, 2, 3, 4, 0]
        (fun _ _ => 0) 0 1 = 1 ∧
      paco_deposit_spec 5 (1 / 2) 1 [0, 1, 2, 3, 4] [1, 2, 3, 4, 0]
        (fun _ _ => 0) 0 1 = 1 / 2 ∧
      paco_deposit 5 (1 / 2) 1 [0, 1, 2, 3, 4] [1, 2, 3, 4, 0]
          (fun _ _ => 0) 0 1 ≠
        paco_deposit_spec 5 (1 / 2) 1 [0, 1, 2, 3, 4] [1, 2, 3, 4, 0]
          (fun _ _ => 0) 0 1 := by
  have hidx : ([0, 1, 2, 3, 4] : List ℕ).indexOf 0 = 0 := rfl
  have hbest : ([1, 2, 3, 4, 0] : List ℕ).getD 0 0 = 1 := rfl
  have hidxb : ([1, 2, 3, 4, 0] : List ℕ).indexOf 0 = 4 := rfl
  have h4 : Real.sqrt 4 = 2 := by
    rw [show (4 : ℝ) = 2 ^ 2 by norm_num, Real.sqrt_sq (by norm_num : (0 : ℝ) ≤ 2)]
  have h1 : paco_deposit 5 (1 / 2) 1 [0, 1, 2, 3, 4] [1, 2, 3, 4, 0]
      (fun _ _ => 0) 0 1 = 1 := by
    unfold paco_deposit
    rw [hidx, hbest]
    norm_num [Real.sqrt_one]
  have h2 : paco_deposit_spec 5 (1 / 2) 1 [0, 1, 2, 3, 4] [1, 2, 3, 4, 0]
      (fun _ _ => 0) 0 1 = 1 / 2 := by
    unfold paco_deposit_spec
    rw [hidxb]
    norm_num [h4]
  exact ⟨h1, h2, by rw [h1, h2]; norm_num⟩

/-! ## Evaluation side effects of the pheromone updates
(`optimizer/base.py`, `optimizer/optimizer.py`, `aco/base.py`,
`aco/mmas.py`, `aco/paco.py`)

`BaseOptimizer.evaluate` appends the objective tuple to the history and
resets (improvement) or increments (no improvement) the stagnation
counter on *every* call; `MMAS.update_pheromones` and
`PACO.update_pheromones` both begin with `Zcurrent = self.evaluate(ant)`
and therefore carry that side effect, on top of the one evaluation per
ant done in `ACO.step`. The step loop is modelled with the constructed
ants given as an explicit list (`create_solution` is modelled
separately), the configured local search being `'none'` (the default,
under which `local_search` returns the ant unchanged), and the
`time.time() - _t0` values read by `is_running` as an oracle list. -/

/-- `BaseOptimizer.evaluate` dispatching to the single-objective
`Optimizer._evaluate` (optimizer/base.py lines 57-73, optimizer.py lines
29-49): returns the updated optimizer state and the weighted tardiness. -/
def optimizer_evaluate (inst : PInstance) (s : OptimizerState)
    (sol : List ℕ) : OptimizerState × ℤ :=
  let wt := weighted_tardiness inst sol
  if (wt : WithTop ℤ) < s.Zbest then
    ({ s with
        Zbest := (wt : WithTop ℤ)
        best := some sol
        nStepsWithoutImprovement := 0
        objective := s.objective ++ [[wt]] }, wt)
  else
    ({ s with
        nStepsWithoutImprovement := s.nStepsWithoutImprovement + 1
        objective := s.objective ++ [[wt]] }, wt)

/-- The MMAS engine state: optimizer, trails, trail bounds, persistence,
best ant and its score (`aco/base.py` attributes). -/
structure MMASState where
  opt : OptimizerState
  tau : ℕ → ℕ → ℚ
  tauMin : ℚ
  tauMax : ℚ
  rho : ℚ
  best : List ℕ
  Zbest : ℤ

/-- `MMAS.update_pheromones` (aco/mmas.py lines 44-63): evaluate the ant
(with the optimizer side effects), evaporate, deposit `1/Zcurrent` at
`(ant[k], k)`, clip into `[tau_min, tau_max]`. The ℚ inverse makes the
`Zcurrent = 0` deposit `0` where NumPy would produce `inf`; the claims
proved about this function do not read the deposited value. -/
def mmas_update_pheromones (inst : PInstance) (n : ℕ) (s : MMASState)
    (ant : List ℕ) : MMASState :=
  let r := optimizer_evaluate inst s.opt ant
  { s with
    opt := r.1
    tau := fun i k =>
      let ev := s.rho * s.tau i k
      let dep := if k < n ∧ ant.getD k n = i then ev + (r.2 : ℚ)⁻¹ else ev
      min s.tauMax (max s.tauMin dep) }

/-- The PACO engine state. -/
structure PACOState where
  opt : OptimizerState
  tau : ℕ → ℕ → ℝ
  rho : ℝ
  best : List ℕ
  Zbest : ℤ

/-- `PACO.update_pheromones` (aco/paco.py lines 70-99): evaluate the ant
(with the optimizer side effects), then evaporate-and-deposit as in
`paco_deposit`. -/
noncomputable def paco_update_pheromones (inst : PInstance) (n : ℕ)
    (s : PACOState) (ant : List ℕ) : PACOState :=
  let r := optimizer_evaluate inst s.opt ant
  { s with opt := r.1, tau := paco_deposit n s.rho (r.2 : ℝ) ant s.best s.tau }

/-- `solutions[np.argmin(scores)]`: the first ant achieving the minimal
score of the step. -/
def argminGo : List (List ℕ × ℤ) → List ℕ → ℤ → List ℕ
  | [], a, _ => a
  | e :: rest, a, z => if e.2 < z then argminGo rest e.1 e.2 else argminGo rest a z

/-- `np.argmin` over the `(solution, score)` pairs collected by a step. -/
def argminAnt : List (List ℕ × ℤ) → List ℕ
  | [] => []
  | e :: rest => argminGo rest e.1 e.2

/-- The ant loop of `ACO.step` (aco/base.py lines 103-126) for MMAS
(`pheromones_are_individual()` false): per ant, evaluate, update the
engine best on strict improvement, and break when `is_running` turns
false. Returns the final state and the `(solution, score)` pairs of the
ants actually evaluated. -/
def mmas_step_loop (inst : PInstance) (s : MMASState) :
    List (List ℕ) → List ℚ → MMASState × List (List ℕ × ℤ)
  | [], _ => (s, [])
  | ant :: rest, es =>
    let r := optimizer_evaluate inst s.opt ant
    let s' := if r.2 < s.Zbest
      then { s with opt := r.1, Zbest := r.2, best := ant }
      else { s with opt := r.1 }
    if is_running r.1 (es.headD 0) then
      let q := mmas_step_loop inst s' rest es.tail
      (q.1, (ant, r.2) :: q.2)
    else (s', [(ant, r.2)])

/-- `ACO.step` for MMAS: the ant loop, then one `update_pheromones` with
the iteration's best ant, then `update_parameters` (aco/mmas.py lines
74-81; the ℚ inverse stands in for the unguarded float division, cf.
`mmas_update_parameters`). -/
def mmas_step (inst : PInstance) (n : ℕ) (s : MMASState)
    (ants : List (List ℕ)) (es : List ℚ) : MMASState :=
  let r := mmas_step_loop inst s ants es
  let s' := mmas_update_pheromones inst n r.1 (argminAnt r.2)
  { s' with
    tauMax := ((1 - s'.rho) * (s'.Zbest : ℚ))⁻¹
    tauMin := ((1 - s'.rho) * (s'.Zbest : ℚ))⁻¹ / 5 }

/-- The ant loop of `ACO.step` for PACO (`pheromones_are_individual()`
true): per ant, `update_pheromones(ant)` (which evaluates the ant), then
the loop's own evaluation, best update, and the `is_running` break. -/
noncomputable def paco_step_loop (inst : PInstance) (n : ℕ) (s : PACOState) :
    List (List ℕ) → List ℚ → PACOState × List (List ℕ × ℤ)
  | [], _ => (s, [])
  | ant :: rest, es =>
    let s1 := paco_update_pheromones inst n s ant
    let r := optimizer_evaluate inst s1.opt ant
    let s2 := if r.2 < s1.Zbest
      then { s1 with opt := r.1, Zbest := r.2, best := ant }
      else { s1 with opt := r.1 }
    if is_running r.1 (es.headD 0) then
      let q := paco_step_loop inst n s2 rest es.tail
      (q.1, (ant, r.2) :: q.2)
    else (s2, [(ant, r.2)])

/-- `ACO.step` for PACO: only the ant loop (no best-ant update since
pheromones are individual, and `PACO.update_parameters` is a `pass`). -/
noncomputable def paco_step (inst : PInstance) (n : ℕ) (s : PACOState)
    (ants : List (List ℕ)) (es : List ℚ) : PACOState :=
  (paco_step_loop inst n s ants es).1

theorem optimizer_evaluate_objective (inst : PInstance) (s : OptimizerState)
    (sol : List ℕ) :
    (optimizer_evaluate inst s sol).1.objective =
      s.objective ++ [[weighted_tardiness inst sol]] := by
  unfold optimizer_evaluate
  dsimp only
  split_ifs <;> rfl

theorem optimizer_evaluate_counter (inst : PInstance) (s : OptimizerState)
    (sol : List ℕ) :
    (optimizer_evaluate inst s sol).1.nStepsWithoutImprovement = 0 ∨
      (optimizer_evaluate inst s sol).1.nStepsWithoutImprovement =
        s.nStepsWithoutImprovement + 1 := by
  unfold optimizer_evaluate
  dsimp only
  split_ifs <;> simp

theorem mmas_step_loop_history (inst : PInstance) :
    ∀ (ants : List (List ℕ)) (es : List ℚ) (s : MMASState),
      (mmas_step_loop inst s ants es).1.opt.objective.length =
        s.opt.objective.length + (mmas_step_loop inst s ants es).2.length := by
  intro ants
  induction ants with
  | nil => intro es s; simp [mmas_step_loop]
  | cons ant rest ih =>
    intro es s
    unfold mmas_step_loop
    dsimp only
    have hlen : (optimizer_evaluate inst s.opt ant).1.objective.length =
        s.opt.objective.length + 1 := by
      rw [optimizer_evaluate_objective]; simp
    split_ifs with hrun hz hz <;> simp [ih es.tail, hlen] <;> omega

theorem paco_step_loop_history (inst : PInstance) (n : ℕ) :
    ∀ (ants : List (List ℕ)) (es : List ℚ) (s : PACOState),
      (paco_step_loop inst n s ants es).1.opt.objective.length =
        s.opt.objective.length + 2 * (paco_step_loop inst n s ants es).2.length := by
  intro ants
  induction ants with
  | nil => intro es s; simp [paco_step_loop]
  | cons ant rest ih =>
    intro es s
    unfold paco_step_loop
    dsimp only
    have h1 : (optimizer_evaluate inst (paco_update_pheromones inst n s ant).opt
        ant).1.objective.length = s.opt.objective.length + 2 := by
      rw [optimizer_evaluate_objective]
      unfold paco_update_pheromones
      dsimp only
      rw [optimizer_evaluate_objective]
      simp
    split_ifs with hrun hz hz <;> simp [ih es.tail, h1] <;> omega

theorem step_loop_nonempty_mmas (inst : PInstance) (s : MMASState)
    (ant : List ℕ) (rest : List (List ℕ)) (es : List ℚ) :
    1 ≤ (mmas_step_loop inst s (ant :: rest) es).2.length := by
  unfold mmas_step_loop
  dsimp only
  split_ifs <;> simp

theorem step_loop_nonempty_paco (inst : PInstance) (n : ℕ) (s : PACOState)
    (ant : List ℕ) (rest : List (List ℕ)) (es : List ℚ) :
    1 ≤ (paco_step_loop inst n s (ant :: rest) es).2.length := by
  unfold paco_step_loop
  dsimp only
  split_ifs <;> simp

/-- C10: every call to `MMAS.update_pheromones` or
`PACO.update_pheromones` runs `optimizer.evaluate` on the given ant —
appending one objective tuple to the history and resetting or
incrementing the stagnation counter — beyond the one evaluation per ant
done in `step()`; consequently a step leaves the history with more
entries than the number of ants it evaluated (one extra for MMAS's
best-ant update, duplicated per ant for PACO's individual updates). -/
theorem update_pheromones_evaluates (inst : PInstance) (n : ℕ) :
    (∀ (s : MMASState) (ant : List ℕ),
      (mmas_update_pheromones inst n s ant).opt.objective =
        s.opt.objective ++ [[weighted_tardiness inst ant]] ∧
      ((mmas_update_pheromones inst n s ant).opt.nStepsWithoutImprovement = 0 ∨
        (mmas_update_pheromones inst n s ant).opt.nStepsWithoutImprovement =
          s.opt.nStepsWithoutImprovement + 1)) ∧
    (∀ (s : PACOState) (ant : List ℕ),
      (paco_update_pheromones inst n s ant).opt.objective =
        s.opt.objective ++ [[weighted_tardiness inst ant]] ∧
      ((paco_update_pheromones inst n s ant).opt.nStepsWithoutImprovement = 0 ∨
        (paco_update_pheromones inst n s ant).opt.nStepsWithoutImprovement =
          s.opt.nStepsWithoutImprovement + 1)) ∧
    (∀ (s : MMASState) (ants : List (List ℕ)) (es : List ℚ),
      (mmas_step inst n s ants es).opt.objective.length =
        s.opt.objective.length + (mmas_step_loop inst s ants es).2.length + 1) ∧
    (∀ (s : PACOState) (ants : List (List ℕ)) (es : List ℚ),
      (paco_step inst n s ants es).opt.objective.length =
        s.opt.objective.length + 2 * (paco_step_loop inst n s ants es).2.length) ∧
    (∀ (s : MMASState) (ants : List (List ℕ)) (es : List ℚ),
      s.opt.objective.length + (mmas_step_loop inst s ants es).2.length <
        (mmas_step inst n s ants es).opt.objective.length) ∧
    (∀ (s : PACOState) (ants : List (List ℕ)) (es : List ℚ), ants ≠ [] →
      s.opt.objective.length + (paco_step_loop inst n s ants es).2.length <
        (paco_step inst n s ants es).opt.objective.length) := by
  have hm : ∀ (s : MMASState) (ant : List ℕ),
      (mmas_update_pheromones inst n s ant).opt.objective =
        s.opt.objective ++ [[weighted_tardiness inst ant]] ∧
      ((mmas_update_pheromones inst n s ant).opt.nStepsWithoutImprovement = 0 ∨
        (mmas_update_pheromones inst n s ant).opt.nStepsWithoutImprovement =
          s.opt.nStepsWithoutImprovement + 1) := by
    intro s ant
    constructor
    · unfold mmas_update_pheromones
      exact optimizer_evaluate_objective inst s.opt ant
    · unfold mmas_update_pheromones
      exact optimizer_evaluate_counter inst s.opt ant
  have hp : ∀ (s : PACOState) (ant : List ℕ),
      (paco_update_pheromones inst n s ant).opt.objective =
        s.opt.objective ++ [[weighted_tardiness inst ant]] ∧
      ((paco_update_pheromones inst n s ant).opt.nStepsWithoutImprovement = 0 ∨
        (paco_update_pheromones inst n s ant).opt.nStepsWithoutImprovement =
          s.opt.nStepsWithoutImprovement + 1) := by
    intro s ant
    constructor
    · unfold paco_update_pheromones
      exact optimizer_evaluate_objective inst s.opt ant
    · unfold paco_update_pheromones
      exact optimizer_evaluate_counter inst s.opt ant
  have hms : ∀ (s : MMASState) (ants : List (List ℕ)) (es : List ℚ),
      (mmas_step inst n s ants es).opt.objective.length =
        s.opt.objective.length + (mmas_step_loop inst s ants es).2.length + 1 := by
    intro s ants es
    unfold mmas_step
    dsimp only
    rw [(hm (mmas_step_loop inst s ants es).1
      (argminAnt (mmas_step_loop inst s ants es).2)).1]
    rw [List.length_append, mmas_step_loop_history inst ants es s]
    simp
  have hps : ∀ (s : PACOState) (ants : List (List ℕ)) (es : List ℚ),
      (paco_step inst n s ants es).opt.objective.length =
        s.opt.objective.length + 2 * (paco_step_loop inst n s ants es).2.length := by
    intro s ants es
    unfold paco_step
    exact paco_step_loop_history inst n ants es s
  refine ⟨hm, hp, hms, hps, ?_, ?_⟩
  · intro s ants es
    rw [hms s ants es]; omega
  · intro s ants es hne
    rw [hps s ants es]
    match ants, hne with
    | ant :: rest, _ =>
      have := step_loop_nonempty_paco inst n s ant rest es
      omega

/-- Witness for C10: one `MMAS.update_pheromones` call on a one-job
instance appends exactly one objective tuple to an empty history. -/
theorem update_pheromones_evaluates_witness :
    (mmas_update_pheromones ⟨[[5]], [0], [1]⟩ 1
      ⟨⟨[], ⊤, 0, some ⊤, none, 0, ⊤, none⟩, fun _ _ => 0, 0, 0, 1 / 2, [0], 5⟩
      [0]).opt.objective =
      [] ++ [[weighted_tardiness ⟨[[5]], [0], [1]⟩ [0]]] :=
  ((update_pheromones_evaluates ⟨[[5]], [0], [1]⟩ 1).1
    ⟨⟨[], ⊤, 0, some ⊤, none, 0, ⊤, none⟩, fun _ _ => 0, 0, 0, 1 / 2, [0], 5⟩
    [0]).1

/-! ## The permutation invariant (C4)

Every sequence handed back by a constructor or local-search step is a
permutation of `[0, n)`. The local searches apply at most one in-range
move to a copy of the incumbent; NEH inserts each job exactly once; the
MMAS constructor validates its raw sequence and falls back to the best;
the PACO constructor consumes its candidate window exactly. -/

theorem swapAt_perm (l : List ℕ) (i : ℕ) (h : i + 1 < l.length) :
    (swapAt l i).Perm l := by
  have hi : i < l.length := by omega
  have hd1 : l.drop i = l[i] :: l.drop (i + 1) := List.drop_eq_getElem_cons hi
  have hd2 : l.drop (i + 1) = l[i + 1] :: l.drop (i + 2) :=
    List.drop_eq_getElem_cons h
  have hl : l = l.take i ++ l[i] :: l[i + 1] :: l.drop (i + 2) := by
    conv_lhs => rw [← List.take_append_drop i l]
    rw [hd1, hd2]
  have hswap : swapAt l i = l.take i ++ l[i + 1] :: l[i] :: l.drop (i + 2) := by
    unfold swapAt
    rw [List.getD_eq_getElem _ _ hi, List.getD_eq_getElem _ _ h]
  rw [hswap]
  conv_rhs => rw [hl]
  exact List.Perm.append_left _ (List.Perm.swap _ _ _)

theorem applyInsertion_perm (l : List ℕ) (i j : ℕ) (hj : j ≤ i)
    (hi : i < l.length) :
    (applyInsertion l i j).Perm l := by
  have hd : (l.drop j).drop (i - j) = l[i] :: l.drop (i + 1) := by
    rw [List.drop_drop]
    have heq : j + (i - j) = i := by omega
    rw [heq]
    exact List.drop_eq_getElem_cons hi
  have hl : l.take j ++ ((l.drop j).take (i - j) ++ l[i] :: l.drop (i + 1)) = l := by
    rw [← hd, List.take_append_drop, List.take_append_drop]
  have hins : applyInsertion l i j =
      l.take j ++ l[i] :: ((l.drop j).take (i - j) ++ l.drop (i + 1)) := by
    unfold applyInsertion
    rw [List.getD_eq_getElem _ _ hi]
  rw [hins]
  conv_rhs => rw [← hl]
  exact List.Perm.append_left _ List.perm_middle.symm

theorem swap_scan_mem (inst : PInstance) (dvec wvec : List ℤ) (sol : List ℕ)
    (i : ℕ) :
    ∀ (l : List ℕ) (st : ℤ × Option ℕ),
      (l.foldl (swapScanStep inst dvec wvec sol) st).2 = some i →
      i ∈ l ∨ st.2 = some i := by
  intro l
  induction l with
  | nil => intro st h; exact Or.inr h
  | cons y ys ih =>
    intro st h
    rcases ih _ h with hmem | hst
    · exact Or.inl (by simp [hmem])
    · unfold swapScanStep at hst
      split_ifs at hst
      · injection hst with hst
        exact Or.inl (by simp [hst])
      · exact Or.inr hst

theorem insertion_scan_mem (inst : PInstance) (dvec wvec : List ℤ)
    (ij : ℕ × ℕ) :
    ∀ (l : List (ℕ × ℕ)) (st : List ℕ × ℤ × Option (ℕ × ℕ)),
      (l.foldl (insertionScanStep inst dvec wvec) st).2.2 = some ij →
      ij ∈ l ∨ st.2.2 = some ij := by
  intro l
  induction l with
  | nil => intro st h; exact Or.inr h
  | cons y ys ih =>
    intro st h
    rcases ih _ h with hmem | hst
    · exact Or.inl (by simp [hmem])
    · unfold insertionScanStep at hst
      split_ifs at hst
      · injection hst with hst
        exact Or.inl (by simp [hst])
      · exact Or.inr hst

theorem pairsLT_mem (n : ℕ) (ij : ℕ × ℕ) (h : ij ∈ pairsLT n) :
    ij.2 < ij.1 ∧ ij.1 < n := by
  unfold pairsLT at h
  obtain ⟨i, hi, hj⟩ := List.mem_flatMap.mp h
  obtain ⟨j, hjmem, rfl⟩ := List.mem_map.mp hj
  exact ⟨List.mem_range.mp hjmem, List.mem_range.mp hi⟩

theorem swap_search_perm (inst : PInstance) (n : ℕ) (sol : List ℕ)
    (hsol : sol.Perm (List.range n)) : (swap_search inst sol).1.Perm (List.range n) := by
  unfold swap_search
  dsimp only
  rcases hscan : ((List.range (sol.length - 1)).foldl
      (swapScanStep inst (staleD inst sol) (staleW inst sol) sol)
      (kernel_eval inst (staleD inst sol) (staleW inst sol) sol,
        (none : Option ℕ))).2 with _ | i
  · simpa [hscan] using hsol
  · have hmem := swap_scan_mem inst (staleD inst sol) (staleW inst sol) sol i
      (List.range (sol.length - 1)) _ hscan
    rcases hmem with hmem | hcontra
    · have hi : i < sol.length - 1 := List.mem_range.mp hmem
      simp only [hscan]
      exact (swapAt_perm sol i (by omega)).trans hsol
    · cases hcontra

theorem insertion_search_perm (inst : PInstance) (n : ℕ) (sol : List ℕ)
    (hsol : sol.Perm (List.range n)) :
    (insertion_search inst sol).1.Perm (List.range n) := by
  unfold insertion_search
  dsimp only
  rcases hscan : ((pairsLT sol.length).foldl
      (insertionScanStep inst (staleD inst sol) (staleW inst sol))
      (sol, kernel_eval inst (staleD inst sol) (staleW inst sol) sol,
        (none : Option (ℕ × ℕ)))).2.2 with _ | ij
  · simpa [hscan] using hsol
  · have hmem := insertion_scan_mem inst (staleD inst sol) (staleW inst sol) ij
      (pairsLT sol.length) _ hscan
    rcases hmem with hmem | hcontra
    · obtain ⟨hji, hin⟩ := pairsLT_mem sol.length ij hmem
      simp only [hscan]
      exact (applyInsertion_perm sol ij.1 ij.2 (by omega) hin).trans hsol
    · cases hcontra

/-! ## NEH constructive heuristic (`heuristics.py`, `neh_algorithm`)

Jobs sorted by due date (`np.argsort(d)`, modelled as a stable insertion
sort of the job identifiers on the due-date key — `np.argsort`'s
unstable quicksort may order ties differently, which none of the proved
properties depend on), then each job in turn is inserted at the position
of the partial sequence minimising the partial weighted tardiness, ties
to the earliest position (`best_wt` starts at `np.inf`, modelled `⊤`,
and is replaced on strict `<`). -/

def insertSortedByKey (d : List ℤ) (x : ℕ) : List ℕ → List ℕ
  | [] => [x]
  | y :: ys =>
    if d.getD y 0 ≤ d.getD x 0 then y :: insertSortedByKey d x ys
    else x :: y :: ys

/-- `np.argsort(instance.d)`: the job identifiers `[0, n)` sorted by due
date. -/
def argsortD (d : List ℤ) (n : ℕ) : List ℕ :=
  (List.range n).foldr (insertSortedByKey d) []

/-- One outer iteration of NEH: try the next job `x` at every position
`h ∈ 0..k` of the partial sequence, keep the position of minimal partial
weighted tardiness (first on ties), insert there. -/
def nehStep (inst : PInstance) (sol : List ℕ) (x : ℕ) : List ℕ :=
  let best := (List.range (sol.length + 1)).foldl
    (fun acc h =>
      if (weighted_tardiness inst (sol.take h ++ x :: sol.drop h) : WithTop ℤ) < acc.1
      then ((weighted_tardiness inst (sol.take h ++ x :: sol.drop h) : WithTop ℤ), h)
      else acc)
    ((⊤ : WithTop ℤ), 0)
  sol.take best.2 ++ x :: sol.drop best.2

/-- `neh_algorithm` (heuristics.py lines 12-67). -/
def neh_algorithm (inst : PInstance) : List ℕ :=
  match argsortD inst.d inst.n with
  | [] => []
  | first :: rest => rest.foldl (nehStep inst) [first]

theorem insertSortedByKey_perm (d : List ℤ) (x : ℕ) (l : List ℕ) :
    (insertSortedByKey d x l).Perm (x :: l) := by
  induction l with
  | nil => rfl
  | cons y ys ih =>
    unfold insertSortedByKey
    split_ifs
    · exact (ih.cons y).trans (List.Perm.swap x y ys)
    · rfl

theorem argsortD_perm (d : List ℤ) (n : ℕ) :
    (argsortD d n).Perm (List.range n) := by
  unfold argsortD
  have : ∀ l : List ℕ, (l.foldr (insertSortedByKey d) []).Perm l := by
    intro l
    induction l with
    | nil => rfl
    | cons y ys ih =>
      exact (insertSortedByKey_perm d y _).trans (ih.cons y)
  exact this (List.range n)

theorem nehStep_perm (inst : PInstance) (sol : List ℕ) (x : ℕ) :
    (nehStep inst sol x).Perm (x :: sol) := by
  unfold nehStep
  dsimp only
  refine List.perm_middle.trans ?_
  rw [List.take_append_drop]

theorem neh_foldl_perm (inst : PInstance) :
    ∀ (xs : List ℕ) (sol : List ℕ),
      (xs.foldl (nehStep inst) sol).Perm (sol ++ xs) := by
  intro xs
  induction xs with
  | nil => intro sol; simp
  | cons x rest ih =>
    intro sol
    have h1 := ih (nehStep inst sol x)
    have h2 := (nehStep_perm inst sol x).append_right rest
    exact h1.trans (h2.trans List.perm_middle.symm)

theorem neh_algorithm_perm (inst : PInstance) :
    (neh_algorithm inst).Perm (List.range inst.n) := by
  unfold neh_algorithm
  rcases hsort : argsortD inst.d inst.n with _ | ⟨first, rest⟩
  · have := argsortD_perm inst.d inst.n
    rw [hsort] at this
    exact this
  · have hperm := argsortD_perm inst.d inst.n
    rw [hsort] at hperm
    exact (neh_foldl_perm inst rest [first]).trans hperm

/-! ## Solution construction (`aco/mmas.py`, `aco/paco.py`,
`_create_solution` / `create_solution`)

Both constructors walk positions `k = 0..n-1`, choosing at each step one
of the not-yet-scheduled candidate jobs, driven by `np.random.rand()`
draws (the oracle list `rng`, consumed in source order: one draw for the
branch, one more inside the weighted-sampling branch). The candidate
pool starts as the prefix of the best sequence (`candidates[next_id] =
best[next_id]`); MMAS keeps all `n` unscheduled jobs, PACO keeps a
5-wide window refilled from the seed. The weighted-sampling branch
normalises the candidates' trail intensities and indexes the insertion
point of `np.searchsorted`; MMAS indexes `idx[:5]` with it, which the
source can drive out of bounds (undefined under numba's unchecked
indexing) — the embedding returns the invalid identifier `n` there, and
`create_solution` (aco/mmas.py lines 154-157) rejects any sequence that
is not a valid permutation, falling back to the current best. The
functions are generic in the ordered field carrying the trail
intensities (`ℚ` in `MMASState`, `ℝ` for PACO's cumulated real trails).
-/

/-- `np.argmax`, running state: remaining values, next index, best index
so far, best value so far (first maximum wins). -/
def argmaxGo {α : Type} [LinearOrder α] : List α → ℕ → ℕ → α → ℕ
  | [], _, bi, _ => bi
  | v :: vs, i, bi, bv =>
    if bv < v then argmaxGo vs (i + 1) i v else argmaxGo vs (i + 1) bi bv

/-- `np.argmax` over a list of trail intensities. -/
def argmaxIdx {α : Type} [LinearOrder α] : List α → ℕ
  | [] => 0
  | v :: vs => argmaxGo vs 1 0 v

/-- `np.cumsum` over the intensity field. -/
def cumsumFromF {α : Type} [LinearOrderedField α] (acc : α) : List α → List α
  | [] => []
  | x :: xs => (acc + x) :: cumsumFromF (acc + x) xs

/-- `np.cumsum l` over the intensity field. -/
def cumsumF {α : Type} [LinearOrderedField α] (l : List α) : List α :=
  cumsumFromF 0 l

/-- `np.searchsorted(a, v)` (side `'left'`) for sorted `a`: the number
of entries strictly below `v`. -/
def searchsortedF {α : Type} [LinearOrder α] (a : List α) (v : α) : ℕ :=
  a.countP fun x => decide (x < v)

/-- The loop of `MMAS._create_solution` (aco/mmas.py lines 83-134):
`t` jobs remain to be placed at positions `k, k+1, ...`; `cands` is the
not-yet-scheduled suffix of the candidate array. With probability
`(n-4)/n` the candidate maximising `T[c, k]` is taken, otherwise one is
sampled by cumulative probability through `idx[:5]` — whose indexing the
source can drive out of bounds (modelled as the invalid id `n`). -/
def mmas_create_go {α : Type} [LinearOrderedField α] (T : ℕ → ℕ → α) (n : ℕ) :
    ℕ → ℕ → List ℕ → List α → List ℕ
  | 0, _, _, _ => []
  | t + 1, k, cands, rng =>
    if rng.headD 0 < ((n : α) - 4) / (n : α) then
      let cid := argmaxIdx (cands.map fun c => T c k)
      cands.getD cid n ::
        mmas_create_go T n t (k + 1) (cands.eraseIdx cid) rng.tail
    else
      let proba := cands.map fun c => T c k
      let pos := searchsortedF (cumsumF (proba.map fun x => x / proba.sum))
        (rng.tail.headD 0)
      let cid := ((List.range n).take 5).getD pos n
      cands.getD cid n ::
        mmas_create_go T n t (k + 1) (cands.eraseIdx cid) rng.tail.tail

/-- The validity check of `MMAS.create_solution` (aco/mmas.py lines
155-156): `n == len(np.unique(solution)) and np.all(n > solution) and
np.all(solution >= 0)` (the last conjunct is vacuous over `ℕ`). -/
def isValidPerm (n : ℕ) (sol : List ℕ) : Bool :=
  decide (sol.length = n) && decide sol.Nodup && sol.all fun x => decide (x < n)

/-- `MMAS.create_solution` (aco/mmas.py lines 136-158): run the
constructor on the best sequence, fall back to the best sequence when
the result is not a valid permutation. -/
def mmas_create_solution {α : Type} [LinearOrderedField α] (T : ℕ → ℕ → α)
    (n : ℕ) (best : List ℕ) (rng : List α) : List ℕ :=
  let sol := mmas_create_go T n n 0 best rng
  if isValidPerm n sol then sol else best

/-- The loop of `PACO._create_solution` (aco/paco.py lines 118-181):
`u <= 0.4` takes the first window candidate, `u <= 0.8` the window
candidate maximising the cumulated intensity `T[c, k]`, otherwise one is
sampled by cumulative probability over the window; the chosen candidate
is removed and the next unplaced seed job (when any remain) refills the
window. -/
def paco_create_go {α : Type} [LinearOrderedField α] (T : ℕ → ℕ → α) (n : ℕ) :
    ℕ → ℕ → List ℕ → List ℕ → List α → List ℕ
  | 0, _, _, _, _ => []
  | t + 1, k, cands, seedq, rng =>
    if rng.headD 0 ≤ (2 : α) / 5 then
      cands.getD 0 n ::
        paco_create_go T n t (k + 1) (cands.eraseIdx 0 ++ seedq.take 1)
          (seedq.drop 1) rng.tail
    else if rng.headD 0 ≤ (4 : α) / 5 then
      let cid := argmaxIdx (cands.map fun c => T c k)
      cands.getD cid n ::
        paco_create_go T n t (k + 1) (cands.eraseIdx cid ++ seedq.take 1)
          (seedq.drop 1) rng.tail
    else
      let proba := cands.map fun c => T c k
      let pos := searchsortedF (cumsumF (proba.map fun x => x / proba.sum))
        (rng.tail.headD 0)
      let cid := ((List.range 5).take cands.length).getD pos n
      cands.getD cid n ::
        paco_create_go T n t (k + 1) (cands.eraseIdx cid ++ seedq.take 1)
          (seedq.drop 1) rng.tail.tail

/-- `PACO.create_solution` (aco/paco.py lines 183-200): the candidate
window starts as the first five jobs of the best sequence (for `n < 5`
the source reads past the array; the embedding takes the existing
prefix), the rest queue behind. -/
def paco_create_solution {α : Type} [LinearOrderedField α] (T : ℕ → ℕ → α)
    (n : ℕ) (best : List ℕ) (rng : List α) : List ℕ :=
  paco_create_go T n n 0 (best.take 5) (best.drop 5) rng

theorem argmaxGo_lt {α : Type} [LinearOrder α] :
    ∀ (vs : List α) (i bi : ℕ) (bv : α), bi < i →
      argmaxGo vs i bi bv < i + vs.length := by
  intro vs
  induction vs with
  | nil => intro i bi bv h; simpa [argmaxGo]
  | cons v vs ih =>
    intro i bi bv h
    unfold argmaxGo
    split_ifs
    · have := ih (i + 1) i v (by omega)
      simp only [List.length_cons]
      omega
    · have := ih (i + 1) bi bv (by omega)
      simp only [List.length_cons]
      omega

theorem argmaxIdx_lt {α : Type} [LinearOrder α] (l : List α) (h : l ≠ []) :
    argmaxIdx l < l.length := by
  match l, h with
  | v :: vs, _ =>
    have := argmaxGo_lt vs 1 0 v (by omega)
    simp only [argmaxIdx, List.length_cons]
    omega

theorem sum_map_div {α : Type} [LinearOrderedField α] (l : List α) (c : α) :
    (l.map fun x => x / c).sum = l.sum / c := by
  induction l with
  | nil => simp
  | cons x xs ih => simp [ih, div_add_div_same]

theorem cumsumFromF_length {α : Type} [LinearOrderedField α] (acc : α)
    (l : List α) : (cumsumFromF acc l).length = l.length := by
  induction l generalizing acc with
  | nil => rfl
  | cons x xs ih => simp [cumsumFromF, ih]

theorem cumsumFromF_sum_mem {α : Type} [LinearOrderedField α] :
    ∀ (l : List α) (acc : α), l ≠ [] → (acc + l.sum) ∈ cumsumFromF acc l := by
  intro l
  induction l with
  | nil => intro acc h; exact absurd rfl h
  | cons x xs ih =>
    intro acc _
    cases xs with
    | nil => simp [cumsumFromF]
    | cons y ys =>
      have := ih (acc + x) (by simp)
      rw [List.sum_cons, ← add_assoc]
      exact List.mem_cons_of_mem _ this

theorem sample_searchsorted_lt {α : Type} [LinearOrderedField α]
    (vals : List α) (hpos : ∀ x ∈ vals, 0 < x) (hne : vals ≠ []) (r : α)
    (hr : r < 1) :
    searchsortedF (cumsumF (vals.map fun x => x / vals.sum)) r < vals.length := by
  have hS : 0 < vals.sum := List.sum_pos vals hpos hne
  have hsum : (vals.map fun x => x / vals.sum).sum = 1 := by
    rw [sum_map_div]
    exact div_self (ne_of_gt hS)
  have hmapne : vals.map (fun x => x / vals.sum) ≠ [] := by
    simpa using hne
  have hmem : (1 : α) ∈ cumsumF (vals.map fun x => x / vals.sum) := by
    have := cumsumFromF_sum_mem (vals.map fun x => x / vals.sum) 0 hmapne
    rw [hsum] at this
    simpa using this
  have hlen : (cumsumF (vals.map fun x => x / vals.sum)).length = vals.length := by
    unfold cumsumF
    rw [cumsumFromF_length, List.length_map]
  unfold searchsortedF
  rw [← hlen]
  refine Nat.lt_of_le_of_ne (List.countP_le_length _) fun heq => ?_
  have := (List.countP_eq_length).mp heq _ hmem
  simp only [decide_eq_true_eq] at this
  exact absurd hr (lt_asymm this)

theorem range_take_getD (L pos n : ℕ) (hpos : pos < L) (hL : L ≤ 5) :
    ((List.range 5).take L).getD pos n = pos := by
  rw [List.take_range]
  have hmin : L ⊓ 5 = L := by omega
  rw [hmin]
  have hlt : pos < (List.range L).length := by simpa using hpos
  rw [List.getD_eq_getElem _ _ hlt, List.getElem_range]

theorem perm_getD_cons_eraseIdx (l : List ℕ) (i d : ℕ) (h : i < l.length) :
    l.Perm (l.getD i d :: l.eraseIdx i) := by
  rw [List.getD_eq_getElem _ _ h, List.eraseIdx_eq_take_drop_succ]
  conv_lhs => rw [← List.take_append_drop i l, List.drop_eq_getElem_cons h]
  exact List.perm_middle

theorem paco_pick_perm (n : ℕ) (cands seedq rest : List ℕ) (cid : ℕ)
    (hcid : cid < cands.length)
    (hrest : rest.Perm ((cands.eraseIdx cid ++ seedq.take 1) ++ seedq.drop 1)) :
    (cands.getD cid n :: rest).Perm (cands ++ seedq) := by
  have h1 : (cands.eraseIdx cid ++ seedq.take 1) ++ seedq.drop 1 =
      cands.eraseIdx cid ++ seedq := by
    rw [List.append_assoc, List.take_append_drop]
  rw [h1] at hrest
  have h2 : (cands ++ seedq).Perm (cands.getD cid n :: (cands.eraseIdx cid ++ seedq)) := by
    have := (perm_getD_cons_eraseIdx cands cid n hcid).append_right seedq
    simpa using this
  exact (hrest.cons _).trans h2.symm

theorem paco_create_go_perm {α : Type} [LinearOrderedField α]
    (T : ℕ → ℕ → α) (n : ℕ) (hT : ∀ c k, 0 < T c k) :
    ∀ (t k : ℕ) (cands seedq : List ℕ) (rng : List α),
      (∀ x ∈ rng, 0 ≤ x ∧ x < 1) →
      cands.length + seedq.length = t →
      cands.length = min 5 t →
      (paco_create_go T n t k cands seedq rng).Perm (cands ++ seedq) := by
  intro t
  induction t with
  | zero =>
    intro k cands seedq rng hrng hsum hmin
    have hc : cands = [] := List.length_eq_zero.mp (by omega)
    have hs : seedq = [] := List.length_eq_zero.mp (by omega)
    subst hc; subst hs
    simp [paco_create_go]
  | succ t ih =>
    intro k cands seedq rng hrng hsum hmin
    have hclen : 0 < cands.length := by omega
    have hinv : ∀ cid : ℕ, cid < cands.length →
        (cands.eraseIdx cid ++ seedq.take 1).length + (seedq.drop 1).length = t ∧
        (cands.eraseIdx cid ++ seedq.take 1).length = min 5 t := by
      intro cid hcid
      have he : (cands.eraseIdx cid).length = cands.length - 1 := by
        rw [List.length_eraseIdx]
        simp [hcid]
      constructor
      · simp only [List.length_append, List.length_take, List.length_drop, he]
        omega
      · simp only [List.length_append, List.length_take, he]
        omega
    have hrng1 : ∀ x ∈ rng.tail, 0 ≤ x ∧ x < 1 :=
      fun x hx => hrng x (List.mem_of_mem_tail hx)
    have hrng2 : ∀ x ∈ rng.tail.tail, 0 ≤ x ∧ x < 1 :=
      fun x hx => hrng1 x (List.mem_of_mem_tail hx)
    unfold paco_create_go
    dsimp only
    split_ifs with h1 h2
    · have hcid : 0 < cands.length := hclen
      exact paco_pick_perm n cands seedq _ 0 hcid
        (ih (k + 1) _ _ rng.tail hrng1 (hinv 0 hcid).1 (hinv 0 hcid).2)
    · have hmapne : cands.map (fun c => T c k) ≠ [] := by
        intro hc
        have := congrArg List.length hc
        simp only [List.length_map, List.length_nil] at this
        omega
      have hcid : argmaxIdx (cands.map fun c => T c k) < cands.length := by
        have := argmaxIdx_lt (cands.map fun c => T c k) hmapne
        rwa [List.length_map] at this
      exact paco_pick_perm n cands seedq _ _ hcid
        (ih (k + 1) _ _ rng.tail hrng1 (hinv _ hcid).1 (hinv _ hcid).2)
    · have hrlt : rng.tail.headD 0 < 1 := by
        rcases hh : rng.tail with _ | ⟨a, l⟩
        · simp only [List.headD_nil]
          exact zero_lt_one
        · have : a ∈ rng.tail := by rw [hh]; exact List.mem_cons_self a l
          have := hrng1 a this
          simpa [hh] using this.2
      have hvpos : ∀ x ∈ cands.map (fun c => T c k), 0 < x := by
        intro x hx
        obtain ⟨c, _, rfl⟩ := List.mem_map.mp hx
        exact hT c k
      have hvne : cands.map (fun c => T c k) ≠ [] := by
        intro hc
        have := congrArg List.length hc
        simp only [List.length_map, List.length_nil] at this
        omega
      have hposlt := sample_searchsorted_lt (cands.map fun c => T c k)
        hvpos hvne (rng.tail.headD 0) hrlt
      rw [List.length_map] at hposlt
      have hget : ((List.range 5).take cands.length).getD
          (searchsortedF (cumsumF ((cands.map fun c => T c k).map fun x =>
            x / (cands.map fun c => T c k).sum)) (rng.tail.headD 0)) n =
          searchsortedF (cumsumF ((cands.map fun c => T c k).map fun x =>
            x / (cands.map fun c => T c k).sum)) (rng.tail.headD 0) :=
        range_take_getD cands.length _ n hposlt (by omega)
      rw [hget]
      exact paco_pick_perm n cands seedq _ _ hposlt
        (ih (k + 1) _ _ rng.tail.tail hrng2 (hinv _ hposlt).1 (hinv _ hposlt).2)

theorem isValidPerm_perm (n : ℕ) (sol : List ℕ)
    (h : isValidPerm n sol = true) : sol.Perm (List.range n) := by
  unfold isValidPerm at h
  simp only [Bool.and_eq_true, decide_eq_true_eq, List.all_eq_true] at h
  obtain ⟨⟨hlen, hnd⟩, hlt⟩ := h
  have hsub : sol ⊆ List.range n := fun x hx =>
    List.mem_range.mpr (by simpa using hlt x hx)
  exact (hnd.subperm hsub).perm_of_length_le (by simp [hlen])

theorem mmas_create_solution_perm {α : Type} [LinearOrderedField α]
    (T : ℕ → ℕ → α) (n : ℕ) (best : List ℕ) (rng : List α)
    (hbest : best.Perm (List.range n)) :
    (mmas_create_solution T n best rng).Perm (List.range n) := by
  unfold mmas_create_solution
  dsimp only
  split_ifs with h
  · exact isValidPerm_perm n _ h
  · exact hbest

theorem paco_create_solution_perm {α : Type} [LinearOrderedField α]
    (T : ℕ → ℕ → α) (n : ℕ) (best : List ℕ) (rng : List α)
    (hbest : best.Perm (List.range n))
    (hrng : ∀ x ∈ rng, 0 ≤ x ∧ x < 1) (hT : ∀ c k, 0 < T c k) :
    (paco_create_solution T n best rng).Perm (List.range n) := by
  have hblen : best.length = n := by simpa using hbest.length_eq
  unfold paco_create_solution
  have hgo := paco_create_go_perm T n hT n 0 (best.take 5) (best.drop 5) rng
    hrng
    (by have h1 := List.length_take 5 best
        have h2 := List.length_drop 5 best
        omega)
    (by have h1 := List.length_take 5 best
        omega)
  rw [List.take_append_drop] at hgo
  exact hgo.trans hbest

/-- C4: every permutation returned by a constructor or local-search step
— `neh_algorithm`, the three local searches, `MMAS.create_solution`,
`PACO.create_solution` — is a permutation of `[0, n)` (sorting it yields
`[0, 1, …, N-1]`, i.e. it is a `List.Perm` of `List.range n`); in
particular, when the MMAS construction produces a sequence that is not a
valid permutation, the engine falls back to returning the current best
permutation. The PACO part assumes `5 ≤ n` (its candidate window), draws
in `[0, 1)` and positive cumulated intensities (positive trails). -/
theorem constructors_produce_permutations (inst : PInstance) (n : ℕ) :
    (neh_algorithm inst).Perm (List.range inst.n) ∧
    (∀ sol : List ℕ, sol.Perm (List.range n) →
      (swap_search inst sol).1.Perm (List.range n)) ∧
    (∀ sol : List ℕ, sol.Perm (List.range n) →
      (interchange_search inst sol).1.Perm (List.range n)) ∧
    (∀ sol : List ℕ, sol.Perm (List.range n) →
      (insertion_search inst sol).1.Perm (List.range n)) ∧
    (∀ (α : Type) [LinearOrderedField α], ∀ (T : ℕ → ℕ → α)
        (best : List ℕ) (rng : List α), best.Perm (List.range n) →
      (mmas_create_solution T n best rng).Perm (List.range n)) ∧
    (∀ (α : Type) [LinearOrderedField α], ∀ (T : ℕ → ℕ → α)
        (best : List ℕ) (rng : List α),
      ¬ isValidPerm n (mmas_create_go T n n 0 best rng) = true →
      mmas_create_solution T n best rng = best) ∧
    (∀ (α : Type) [LinearOrderedField α], ∀ (T : ℕ → ℕ → α)
        (best : List ℕ) (rng : List α), best.Perm (List.range n) → 5 ≤ n →
      (∀ x ∈ rng, 0 ≤ x ∧ x < 1) → (∀ c k, 0 < T c k) →
      (paco_create_solution T n best rng).Perm (List.range n)) := by
  refine ⟨neh_algorithm_perm inst, swap_search_perm inst n,
    swap_search_perm inst n, insertion_search_perm inst n, ?_, ?_, ?_⟩
  · intro α _ T best rng hbest
    exact mmas_create_solution_perm T n best rng hbest
  · intro α _ T best rng hinvalid
    unfold mmas_create_solution
    dsimp only
    rw [if_neg hinvalid]
  · intro α _ T best rng hbest _ hrng hT
    exact paco_create_solution_perm T n best rng hbest hrng hT

/-- Witness for C4: the MMAS and PACO constructors at concrete rational
trails and concrete best permutations. -/
theorem constructors_produce_permutations_witness :
    (mmas_create_solution (fun _ _ => (1 : ℚ)) 3 [2, 0, 1] []).Perm
        (List.range 3) ∧
      (paco_create_solution (fun _ _ => (1 : ℚ)) 5 [4, 3, 2, 1, 0] []).Perm
        (List.range 5) :=
  ⟨(constructors_produce_permutations ⟨[], [], []⟩ 3).2.2.2.2.1 ℚ
      (fun _ _ => (1 : ℚ)) [2, 0, 1] [] (by decide),
    (constructors_produce_permutations ⟨[], [], []⟩ 5).2.2.2.2.2.2 ℚ
      (fun _ _ => (1 : ℚ)) [4, 3, 2, 1, 0] [] (by decide) (by decide)
      (by simp) (fun c k => by norm_num)⟩

end PFSPWT
